import Mathlib

/-!
Shallow embedding of the qfs-compression library (index.js): the QFS/LZ77
`decompress` and `compress` functions, together with proofs of the spec's
claims about them.

Byte buffers are modelled as `List Nat`.  JavaScript quirks that are
observable in the source are modelled explicitly:
* an out-of-bounds indexed read of a typed array yields `undefined`,
  modelled as `Option.none`;
* `undefined` under a bitwise operator behaves as `0`, under `+`/`*` it
  yields `NaN`; a `NaN` write position or length is modelled with
  `Option.none` states;
* a store into a `Uint8Array` keeps the value modulo 256 and silently drops
  out-of-range writes.
-/

set_option maxRecDepth 8000

namespace Qfs

instance {ε α : Type} [DecidableEq ε] [DecidableEq α] : DecidableEq (Except ε α) := fun x y =>
  match x, y with
  | .ok a, .ok b =>
    if h : a = b then .isTrue (by rw [h])
    else .isFalse (by intro hh; cases hh; exact h rfl)
  | .error a, .error b =>
    if h : a = b then .isTrue (by rw [h])
    else .isFalse (by intro hh; cases hh; exact h rfl)
  | .ok _, .error _ => .isFalse (by intro hh; cases hh)
  | .error _, .ok _ => .isFalse (by intro hh; cases hh)

/-- An indexed read `input[i]` of a typed array: `none` models `undefined`. -/
def jsGet (l : List Nat) (i : Nat) : Option Nat := l.get? i

/-- An indexed read in a context where JavaScript coerces `undefined` to `0`
(bitwise operators, or a value immediately stored into a `Uint8Array`). -/
def getB (l : List Nat) (i : Nat) : Nat := (l.get? i).getD 0

/-- Storing a (possibly negative) number into a `Uint8Array` slot keeps its
value modulo 256 (two's complement wrap). -/
def jsByte (v : Int) : Nat := (v.emod 256).toNat

/-- JavaScript `x << n` for the in-range signed values the encoder handles. -/
def shlI (x : Int) (n : Nat) : Int := x * 2 ^ n

/-- JavaScript `x >> n` (arithmetic shift, i.e. floor division) for in-range
signed values. -/
def shrI (x : Int) (n : Nat) : Int := Int.fdiv x (2 ^ n)

/-- `out[i] = v` on the fixed-size output typed array: the value is stored
modulo 256 and an out-of-range write is silently dropped (`List.set` drops
out-of-range indices as well). -/
def wr (out : List Nat) (i : Nat) (v : Nat) : List Nat := out.set i (v % 256)

/-- Read the output buffer at a possibly negative index, in a context where
the value is immediately stored again: an out-of-range read yields
`undefined`, which the typed-array store converts to `0`. -/
def rdO (out : List Nat) (i : Int) : Nat :=
  if 0 ≤ i then getB out i.toNat else 0

/-- `memcpy(out, outpos, input, inpos, length)` from the source, for the
literal-copy calls (the source array is the compressed input, so there is no
aliasing).  A `none` destination models an `outpos` that has become `NaN`:
every write is dropped. -/
def litCopy (out : List Nat) (dst : Option Nat) (input : List Nat) (src : Nat) :
    Nat → List Nat
  | 0 => out
  | n+1 =>
    match dst with
    | none => out
    | some d => litCopy (wr out d (getB input src)) (some (d+1)) input (src+1) n

/-- `memcpy(out, outpos, out, outpos-offset, length)` from the source: the
self-aliasing back-copy, performed strictly one byte at a time.  A `none`
source index models a `NaN` offset: each read yields `undefined`, stored as
`0`.  A `none` destination models a `NaN` write position: nothing is
written. -/
def backCopy (out : List Nat) : Option Nat → Option Int → Nat → List Nat
  | _, _, 0 => out
  | none, _, _+1 => out
  | some d, src, n+1 =>
      backCopy (wr out d (match src with | none => 0 | some s => rdO out s))
        (some (d+1)) (Option.map (· + 1) src) n

/-- One iteration of the token-decoding `while` loop of `decompress`, for a
control byte `code = input[inpos] < 0xfc`.  Returns the new
`(inpos, out, outpos)`; `outpos = none` models a write position that has
become `NaN`. -/
def decodeStep (input : List Nat) (inpos code : Nat) (out : List Nat)
    (outpos : Option Nat) : Nat × List Nat × Option Nat :=
  let a := jsGet input (inpos+1)
  let b := jsGet input (inpos+2)
  if code &&& 0x80 = 0 then
    -- 2-byte control character
    let length := code &&& 3
    let out1 := litCopy out outpos input (inpos+2) length
    let inpos1 := inpos + length + 2
    let outpos1 := Option.map (· + length) outpos
    let length2 := ((code &&& 0x1c) >>> 2) + 3
    let offset : Option Nat := a.map (fun av => ((code >>> 5) <<< 8) + av + 1)
    let out2 := backCopy out1 outpos1
      (match outpos1, offset with
        | some p, some o => some ((p : Int) - (o : Int))
        | _, _ => none) length2
    (inpos1, out2, Option.map (· + length2) outpos1)
  else if code &&& 0x40 = 0 then
    -- 3-byte control character; `a >> 6` and `a & 0x3f` coerce
    -- `undefined` to `0`
    let av := a.getD 0
    let length := (av >>> 6) &&& 3
    let out1 := litCopy out outpos input (inpos+3) length
    let inpos1 := inpos + length + 3
    let outpos1 := Option.map (· + length) outpos
    let length2 := (code &&& 0x3f) + 4
    let offset : Option Nat := b.map (fun bv => (av &&& 0x3f) * 256 + bv + 1)
    let out2 := backCopy out1 outpos1
      (match outpos1, offset with
        | some p, some o => some ((p : Int) - (o : Int))
        | _, _ => none) length2
    (inpos1, out2, Option.map (· + length2) outpos1)
  else if code &&& 0x20 = 0 then
    -- 4-byte control character
    let c := jsGet input (inpos+3)
    let length := code &&& 3
    let out1 := litCopy out outpos input (inpos+4) length
    let inpos1 := inpos + length + 4
    let outpos1 := Option.map (· + length) outpos
    match c with
    | none =>
      -- `length = ((code>>2)&3)*256 + c + 5` is `NaN`: the copy loop body
      -- never runs and `outpos += length` turns `outpos` into `NaN`
      (inpos1, out1, none)
    | some cv =>
      let length2 := ((code >>> 2) &&& 3) * 256 + cv + 5
      let offset : Option Nat :=
        match a, b with
        | some av, some bv => some (((code &&& 0x10) <<< 12) + 256 * av + bv + 1)
        | _, _ => none
      let out2 := backCopy out1 outpos1
        (match outpos1, offset with
          | some p, some o => some ((p : Int) - (o : Int))
          | _, _ => none) length2
      (inpos1, out2, Option.map (· + length2) outpos1)
  else
    -- raw run: no compression, copy as is
    let length := (code &&& 0x1f) * 4 + 4
    let out1 := litCopy out outpos input (inpos+1) length
    (inpos + length + 1, out1, Option.map (· + length) outpos)

/-- The token-decoding `while` loop of `decompress`
(`while (inpos < input.length && input[inpos] < 0xfc)`), with one unit of
fuel per iteration (`decompress` supplies `input.length`, which the
fuel-adequacy theorem shows is always enough). -/
def decodeLoop (input : List Nat) : Nat → Nat → List Nat → Option Nat →
    Nat × List Nat × Option Nat
  | 0, inpos, out, outpos => (inpos, out, outpos)
  | fuel+1, inpos, out, outpos =>
    if inpos < input.length ∧ getB input inpos < 0xfc then
      let s := decodeStep input inpos (getB input inpos) out outpos
      decodeLoop input fuel s.1 s.2.1 s.2.2
    else (inpos, out, outpos)

inductive DErr where
  | invalidMagic
  | invalidSize
  | corrupt
deriving DecidableEq

/-- The uncompressed size declared by the header:
`0x10000*input[2] + 0x100*input[3] + input[4]`. -/
def declaredSize (input : List Nat) : Nat :=
  0x10000 * getB input 2 + 0x100 * getB input 3 + getB input 4

/-- Where token decoding starts: `input[0] & 0x01 ? 8 : 5`. -/
def headerLen (input : List Nat) : Nat :=
  if getB input 0 &&& 0x01 ≠ 0 then 8 else 5

/-- The decoding work of `decompress` after the header has been read: the
token loop followed by the trailing-bytes step.  Returns the output buffer
and the final write position. -/
def decodeRun (input : List Nat) (start size : Nat) : List Nat × Option Nat :=
  let r := decodeLoop input input.length start (List.replicate size 0) (some 0)
  let inpos := r.1
  let out := r.2.1
  let outpos := r.2.2
  -- trailing bytes, indicated by a control character >= 0xfc
  match outpos with
  | some p =>
    if inpos < input.length ∧ p < out.length then
      let length := getB input inpos &&& 3
      (litCopy out (some p) input (inpos+1) length, some (p + length))
    else (out, outpos)
  | none => (out, outpos)

/-- `decompress(input)` from the source.  `invalidSize` models the
`RangeError` thrown by Node's `Buffer.allocUnsafe` when the input is shorter
than the 5 header bytes: the size read then involves `undefined` and is
`NaN`, which `malloc` rejects. -/
def decompress (input : List Nat) : Except DErr (List Nat) :=
  let a := jsGet input 0
  let b := jsGet input 1
  if (a = some 0x10 ∨ a = some 0x11) ∧ b = some 0xfb then
    if input.length < 5 then .error .invalidSize
    else
      let r := decodeRun input (headerLen input) (declaredSize input)
      -- check if everything is correct
      match r.2 with
      | some p => if p = r.1.length then .ok r.1 else .error .corrupt
      | none => .error .corrupt
  else .error .invalidMagic

/-- Modelled from the spec for claim C4 only: the variant of `decompress`
the spec describes, in which a header whose magic byte has its low bit set
is 9 bytes long, so that token decoding starts at offset 9 instead of the
source's offset 8.  Everything else is as in `decompress`. -/
def decompressSpec9 (input : List Nat) : Except DErr (List Nat) :=
  let a := jsGet input 0
  let b := jsGet input 1
  if (a = some 0x10 ∨ a = some 0x11) ∧ b = some 0xfb then
    if input.length < 5 then .error .invalidSize
    else
      let start := if getB input 0 &&& 0x01 ≠ 0 then 9 else 5
      let r := decodeRun input start (declaredSize input)
      match r.2 with
      | some p => if p = r.1.length then .ok r.1 else .error .corrupt
      | none => .error .corrupt
  else .error .invalidMagic

inductive CErr where
  | inputTooLarge
deriving DecidableEq

/-- Performance calibration constant `QFS_MAXITER` of the source. -/
def QFS_MAXITER : Nat := 50

/-- The innermost loop of the match search: extend a candidate match byte by
byte (`while (incmp < input.length && inref < input.length &&
input[incmp++] === input[inref++] && length < 1028) length++`).  Fuel is
supplied as `input.length - incmp`, which the loop guard makes sufficient. -/
def mlen (input : List Nat) : Nat → Nat → Nat → Nat → Nat
  | 0, _, _, l => l
  | f+1, incmp, inref, l =>
    if incmp < input.length ∧ inref < input.length ∧
        getB input incmp = getB input inref ∧ l < 1028 then
      mlen input f (incmp+1) (inref+1) (l+1)
    else l

/-- The hash-chain walk of the match search (`while (offs >= 0 &&
inpos-offs < WINDOW_LEN && i++ < QFS_MAXITER)`); the fuel argument models
`i++ < QFS_MAXITER` (the caller supplies `QFS_MAXITER`).  Returns the final
`(bestlen, bestoffs)`. -/
def search (input : List Nat) (W : Nat) (rs : Nat → Int) (inpos : Nat) :
    Nat → Int → Nat → Nat → Nat × Nat
  | 0, _, bl, bo => (bl, bo)
  | f+1, offs, bl, bo =>
    if 0 ≤ offs ∧ (inpos : Int) - offs < (W : Int) then
      let o := offs.toNat
      let length := mlen input (input.length - (inpos + 2)) (inpos + 2) (o + 2) 2
      let bl1 := if length > bl then length else bl
      let bo1 := if length > bl then inpos - o else bo
      search input W rs inpos f (rs (o &&& (W - 1))) bl1 bo1
    else (bl, bo)

/-- The literal bytes `input[s], ..., input[s+n-1]` as pushed by the
source's `while (length--) push(input[lastwrot++])` loops (each value passes
through a `Uint8Array` store). -/
def seg (input : List Nat) (s n : Nat) : List Nat :=
  (List.range n).map fun k => getB input (s + k) % 256

/-- The `fill` closure of `compress`: flush the gap `[lastwrot, inpos)` as
raw runs while it is at least 4 bytes wide.  Returns the pushed bytes and
the new `lastwrot`; fuel is supplied as `inpos - lastwrot`, which is enough
because every iteration advances `lastwrot` by at least 4. -/
def fillBytes (input : List Nat) : Nat → Nat → Nat → List Nat × Nat
  | 0, lastwrot, _ => ([], lastwrot)
  | f+1, lastwrot, inpos =>
    if inpos - lastwrot ≥ 4 then
      let l0 := (inpos - lastwrot) / 4 - 1
      let length := if l0 > 0x1b then 0x1b else l0
      let cnt := 4 * length + 4
      let rest := fillBytes input f (lastwrot + cnt) inpos
      (((0xe0 + length) % 256) :: (seg input lastwrot cnt ++ rest.1), rest.2)
    else ([], lastwrot)

/-- The bytes pushed after the main loop of `compress`: the final `fill()`
followed by the terminal control character `0xfc + length` and the trailing
literals. -/
def tailBytes (input : List Nat) (lastwrot : Nat) : List Nat :=
  let fb := fillBytes input (input.length - lastwrot) lastwrot input.length
  let length := input.length - fb.2
  fb.1 ++ ((0xfc + length) % 256) :: seg input fb.2 length

/-- The match token pushed for an accepted `(bestlen, bestoffs)` at position
`inpos`, after `fill()` has reduced the gap to `gap = inpos - lastwrot < 4`:
one of the three control-character shapes followed by `gap` literal bytes.
`bl` is an `Int` because the source's (unreachable) end-of-input branch sets
`bestlen` negative.  An empty list means no branch applied, exactly as in
the source's `if`/`else if` chain. -/
def matchTok (input : List Nat) (W : Nat) (bl : Int) (bo lw gap : Nat) : List Nat :=
  let d := bo - 1
  if bl ≤ 10 ∧ bo ≤ 1024 then
    jsByte (shlI ((d >>> 8 : Nat) : Int) 5 + shlI (bl - 3) 2 + (gap : Int)) ::
      ((d &&& 0xff) % 256) :: seg input lw gap
  else if bl ≤ 67 ∧ bo ≤ 16384 then
    jsByte (0x80 + (bl - 4)) ::
      (((gap <<< 6) + (d >>> 8)) % 256) :: ((d &&& 0xff) % 256) :: seg input lw gap
  else if bl ≤ 1028 ∧ (bo : Int) < (W : Int) then
    jsByte (0xC0 + shlI ((d >>> 16 : Nat) : Int) 4 + shlI (shrI (bl - 5) 8) 2 + (gap : Int)) ::
      (((d >>> 8) &&& 0xff) % 256) :: ((d &&& 0xff) % 256) ::
      jsByte (bl - 5) :: seg input lw gap
  else []

/-- The new `lastwrot` after the match token for `(bl, bo)` is pushed:
`lastwrot + length + bestlen` when one of the three shapes applied
(`while (length--) push(...); lastwrot += bestlen`), otherwise unchanged. -/
def matchAdv (W : Nat) (bl : Int) (bo lw gap : Nat) : Nat :=
  if (bl ≤ 10 ∧ bo ≤ 1024) ∨ (bl ≤ 67 ∧ bo ≤ 16384) ∨
      (bl ≤ 1028 ∧ (bo : Int) < (W : Int)) then
    (((lw : Int) + (gap : Int)) + bl).toNat
  else lw

/-- The main encoding loop of `compress` (`for (; inpos < input.length-1;
inpos++)`), returning every byte pushed from loop entry onwards, including
the final `fill()` and terminal token.  State: `inpos`, `lastwrot`, the
occurrence tables `rl` (`rev_last`, indexed by the two-byte value) and `rs`
(`rev_similar`, indexed modulo the window).  Fuel is supplied as
`input.length`, which covers every iteration. -/
def cLoop (input : List Nat) (W : Nat) :
    Nat → Nat → Nat → (Nat → Int) → (Nat → Int) → List Nat
  | 0, _, lastwrot, _, _ => tailBytes input lastwrot
  | f+1, inpos, lastwrot, rl, rs =>
    if inpos + 1 < input.length then
      -- update the occurrence tables
      let index := 256 * getB input inpos + getB input (inpos + 1)
      let offs := rl index
      let rs1 := fun j => if j = inpos &&& (W - 1) then offs else rs j
      let rl1 := fun j => if j = index then (inpos : Int) else rl j
      if inpos < lastwrot then
        -- already compressed, skip ahead
        cLoop input W f (inpos+1) lastwrot rl1 rs1
      else
        let sr := search input W rs1 inpos QFS_MAXITER offs 0 0
        let bl0 := sr.1
        let bo := sr.2
        -- `if (bestlen > input.length-inpos) { bestlen = inpos-input.length; }
        --  else if (...) continue;  if (!bestlen) continue;`
        let clamp := (bl0 : Int) > (input.length : Int) - (inpos : Int)
        let bl : Int := if clamp then (inpos : Int) - (input.length : Int) else (bl0 : Int)
        if ¬ clamp ∧ (bl0 ≤ 2 ∨ (bl0 = 3 ∧ bo > 1024) ∨ (bl0 = 4 ∧ bo > 16384)) then
          cLoop input W f (inpos+1) lastwrot rl1 rs1
        else if bl = 0 then
          cLoop input W f (inpos+1) lastwrot rl1 rs1
        else
          let fb := fillBytes input (inpos - lastwrot) lastwrot inpos
          let lw := fb.2
          let gap := inpos - lw
          fb.1 ++ matchTok input W bl bo lw gap ++
            cLoop input W f (inpos+1) (matchAdv W bl bo lw gap) rl1 rs1
    else tailBytes input lastwrot

/-- `compress(input, { windowBits })` from the source (the default
`windowBits` is 17). -/
def compress (windowBits : Nat) (input : List Nat) : Except CErr (List Nat) :=
  if input.length > 0xffffff then .error .inputTooLarge
  else
    let W := 2 ^ windowBits
    .ok (0x10 :: 0xfb :: ((input.length >>> 16) % 256) ::
      (((input.length >>> 8) &&& 0xff) % 256) :: ((input.length &&& 0xff) % 256) ::
      cLoop input W input.length 0 0 (fun _ => -1) (fun _ => -1))

/-- `compress` with the default options (`windowBits = 17`). -/
def compressD (input : List Nat) : Except CErr (List Nat) := compress 17 input

/-- `decodeRun` re-based at the start of the token stream itself, from an
arbitrary mid-decoding state `(out, p)`: the loop and the trailing-bytes
step run on the stream `S`. -/
def finishRun (S out : List Nat) (p : Nat) : List Nat × Option Nat :=
  let r := decodeLoop S S.length 0 out (some p)
  match r.2.2 with
  | some q =>
    if r.1 < S.length ∧ q < r.2.1.length then
      let length := getB S r.1 &&& 3
      (litCopy r.2.1 (some q) S (r.1+1) length, some (q + length))
    else (r.2.1, r.2.2)
  | none => (r.2.1, r.2.2)

/-- `decodeRun` re-based at the start of the token stream itself: the loop
and the trailing-bytes step run on the stream `s` that follows the header.
`decodeRun_append` shows `decompress` computes exactly this. -/
def runTokens (s : List Nat) (size : Nat) : List Nat × Option Nat :=
  finishRun s (List.replicate size 0) 0

/-- The input is a genuine byte sequence (every element fits in a byte),
as a `Uint8Array` guarantees. -/
def Bytes (b : List Nat) : Prop := ∀ x ∈ b, x < 256

/-- The two-byte hash key at position `p`, as `compress` computes it
(`256*input[inpos] + input[inpos+1]`). -/
def idxAt (b : List Nat) (p : Nat) : Nat := 256 * getB b p + getB b (p + 1)

/-- Soundness of a candidate `(bl, bo)` produced by the match search at
position `inpos`: a real backward match that stays inside the input and
inside the window. -/
def MatchOK (b : List Nat) (W inpos bl bo : Nat) : Prop :=
  1 ≤ bo ∧ bo ≤ inpos ∧ bo < W ∧ 2 ≤ bl ∧ bl ≤ 1028 ∧ inpos + bl ≤ b.length ∧
  ∀ k, k < bl → getB b (inpos - bo + k) = getB b (inpos + k)

/-- The search accumulator is either still empty or a sound candidate. -/
def AccOK (b : List Nat) (W inpos bl bo : Nat) : Prop :=
  (bl = 0 ∧ bo = 0) ∨ MatchOK b W inpos bl bo

/-- Invariant of the `rev_last` table after the encoding loop has processed
all positions below `t`: every entry is `-1` or an earlier position (with a
full two-byte pair in range) hashing to its index. -/
def RlInv (b : List Nat) (rl : Nat → Int) (t : Nat) : Prop :=
  ∀ idx : Nat, rl idx = -1 ∨ ∃ p : Nat, rl idx = (p : Int) ∧ p < t ∧ p + 1 < b.length ∧
    idxAt b p = idx

/-- Invariant of the `rev_similar` table after the encoding loop has
processed all positions below `t`: within the live window, the slot of a
position `p` holds `-1` or an earlier occurrence of `p`'s two-byte pair. -/
def RsInv (b : List Nat) (W : Nat) (rs : Nat → Int) (t : Nat) : Prop :=
  ∀ p : Nat, p < t → t - p ≤ W → p + 1 < b.length →
    rs (p % W) = -1 ∨ ∃ q : Nat, rs (p % W) = (q : Int) ∧ q < p ∧ q + 1 < b.length ∧
      idxAt b q = idxAt b p

/-- A chain head or link value during the walk at position `inpos`: `-1` or
an earlier position with the same two-byte pair. -/
def ChainV (b : List Nat) (inpos : Nat) (v : Int) : Prop :=
  v = -1 ∨ ∃ q : Nat, v = (q : Int) ∧ q < inpos ∧ q + 1 < b.length ∧
    idxAt b q = idxAt b inpos

/-- The capped length field of the raw-run control byte `fill` pushes for a
gap of the given width: `(gap/4 - 1)`, capped at `0x1b`. -/
def fillL (gap : Nat) : Nat :=
  if gap / 4 - 1 > 0x1b then 0x1b else gap / 4 - 1

/-- The byte counts of the successive raw runs `fill` pushes for a given
gap width (fuel as in `fillBytes`). -/
def fillLens : Nat → Nat → List Nat
  | 0, _ => []
  | f+1, gap =>
    if gap ≥ 4 then (4 * fillL gap + 4) :: fillLens f (gap - (4 * fillL gap + 4))
    else []

/-- Raw-run tokens covering the given run lengths, starting at `lw`: each
one is the control byte `0xe0 + (len/4 - 1)` followed by its literals. -/
def renderRuns (input : List Nat) : Nat → List Nat → List Nat
  | _, [] => []
  | lw, c :: cs =>
    ((0xe0 + (c / 4 - 1)) % 256) :: (seg input lw c ++ renderRuns input (lw + c) cs)

/-! ### Basic arithmetic facts about the bit operations involved -/

theorem and_255 (x : Nat) : x &&& 0xff = x % 256 := by
  simpa using Nat.and_pow_two_sub_one_eq_mod x 8

theorem and_3 (x : Nat) : x &&& 3 = x % 4 := by
  simpa using Nat.and_pow_two_sub_one_eq_mod x 2

theorem and_31 (x : Nat) : x &&& 0x1f = x % 32 := by
  simpa using Nat.and_pow_two_sub_one_eq_mod x 5

theorem and_63 (x : Nat) : x &&& 0x3f = x % 64 := by
  simpa using Nat.and_pow_two_sub_one_eq_mod x 6

theorem shr8 (x : Nat) : x >>> 8 = x / 256 := Nat.shiftRight_eq_div_pow x 8

theorem shr16 (x : Nat) : x >>> 16 = x / 65536 := Nat.shiftRight_eq_div_pow x 16

theorem getB_at0 (x0 : Nat) (l : List Nat) : getB (x0 :: l) 0 = x0 := rfl

theorem getB_at1 (x0 x1 : Nat) (l : List Nat) : getB (x0 :: x1 :: l) 1 = x1 := rfl

theorem getB_at2 (x0 x1 x2 : Nat) (l : List Nat) : getB (x0 :: x1 :: x2 :: l) 2 = x2 := rfl

theorem getB_at3 (x0 x1 x2 x3 : Nat) (l : List Nat) :
    getB (x0 :: x1 :: x2 :: x3 :: l) 3 = x3 := rfl

theorem getB_at4 (x0 x1 x2 x3 x4 : Nat) (l : List Nat) :
    getB (x0 :: x1 :: x2 :: x3 :: x4 :: l) 4 = x4 := rfl

/-! ### Bounds on the match search (claim C2) -/

/-- The candidate-extension loop counts at most one byte per remaining input
byte past `incmp`: its result is at most `l + (input.length - incmp)`. -/
theorem mlen_le (input : List Nat) :
    ∀ f incmp inref l, mlen input f incmp inref l ≤ l + (input.length - incmp) := by
  intro f
  induction f with
  | zero => intro incmp inref l; simp [mlen]
  | succ f ih =>
    intro incmp inref l
    unfold mlen
    split
    · rename_i h
      have := ih (incmp+1) (inref+1) (l+1)
      omega
    · omega

/-- The hash-chain walk never reports a length exceeding the remaining
input, provided the accumulator does not either. -/
theorem search_le (input : List Nat) (W : Nat) (rs : Nat → Int) (inpos : Nat) :
    ∀ f offs bl bo, inpos + 2 ≤ input.length → bl ≤ input.length - inpos →
      (search input W rs inpos f offs bl bo).1 ≤ input.length - inpos := by
  intro f
  induction f with
  | zero => intro offs bl bo _ hbl; simpa [search] using hbl
  | succ f ih =>
    intro offs bl bo h2 hbl
    unfold search
    split
    · have hm := mlen_le input (input.length - (inpos + 2)) (inpos + 2) (offs.toNat + 2) 2
      apply ih
      · exact h2
      · split <;> omega
    · simpa [search] using hbl

/-! ### Rebase and fuel lemmas for the decoding loop -/

/-- Every iteration of the decoding loop advances the read position by at
least 2 (the smallest token is a 2-byte control character). -/
theorem decodeStep_advance (input : List Nat) (inpos code : Nat) (out : List Nat)
    (op : Option Nat) : inpos + 2 ≤ (decodeStep input inpos code out op).1 := by
  unfold decodeStep
  dsimp only
  split
  · dsimp only
    omega
  · split
    · dsimp only
      omega
    · split
      · split
        · dsimp only
          omega
        · dsimp only
          omega
      · dsimp only
        omega

theorem jsGet_drop (input : List Nat) (n s : Nat) :
    jsGet (input.drop n) s = jsGet input (n + s) := by
  simp [jsGet, List.get?_drop]

theorem getB_drop (input : List Nat) (n s : Nat) :
    getB (input.drop n) s = getB input (n + s) := by
  simp [getB, List.get?_drop]

theorem litCopy_drop (input : List Nat) (n : Nat) :
    ∀ len out dst s,
      litCopy out dst (input.drop n) s len = litCopy out dst input (n + s) len := by
  intro len
  induction len with
  | zero => intro out dst s; rfl
  | succ len ih =>
    intro out dst s
    cases dst with
    | none => rfl
    | some d =>
      show litCopy (wr out d (getB (input.drop n) s)) (some (d+1)) (input.drop n) (s+1) len =
        litCopy (wr out d (getB input (n+s))) (some (d+1)) input (n+(s+1)) len
      rw [getB_drop]
      exact ih _ _ _

/-- One decoding step only reads the input at or after the current
position, so it commutes with dropping a prefix. -/
theorem decodeStep_drop (input : List Nat) (n i code : Nat) (out : List Nat)
    (op : Option Nat) :
    decodeStep input (n + i) code out op =
      ((decodeStep (input.drop n) i code out op).1 + n,
        (decodeStep (input.drop n) i code out op).2) := by
  unfold decodeStep
  dsimp only
  split
  · dsimp only
    simp only [jsGet_drop, litCopy_drop, Nat.add_assoc, Nat.add_comm, Nat.add_left_comm]
  · split
    · dsimp only
      simp only [jsGet_drop, getB_drop, litCopy_drop, Nat.add_assoc, Nat.add_comm,
        Nat.add_left_comm]
    · split
      · simp only [jsGet_drop, getB_drop, litCopy_drop, Nat.add_assoc, Nat.add_comm,
          Nat.add_left_comm]
        split <;> rfl
      · dsimp only
        simp only [jsGet_drop, litCopy_drop, Nat.add_assoc, Nat.add_comm, Nat.add_left_comm]

/-- Once the read position passes the end of the input, the loop stops. -/
theorem decodeLoop_stop (input : List Nat) (fuel inpos : Nat) (out : List Nat)
    (op : Option Nat) (h : input.length ≤ inpos) :
    decodeLoop input fuel inpos out op = (inpos, out, op) := by
  cases fuel with
  | zero => rfl
  | succ fuel =>
    unfold decodeLoop
    rw [if_neg (by omega)]

/-- The decoding loop commutes with dropping a prefix of the input. -/
theorem decodeLoop_drop (input : List Nat) (n : Nat) :
    ∀ fuel i out op,
      decodeLoop input fuel (n + i) out op =
        ((decodeLoop (input.drop n) fuel i out op).1 + n,
          (decodeLoop (input.drop n) fuel i out op).2) := by
  intro fuel
  induction fuel with
  | zero =>
    intro i out op
    simp [decodeLoop, Nat.add_comm]
  | succ fuel ih =>
    intro i out op
    unfold decodeLoop
    have hcond : (i < (input.drop n).length ∧ getB (input.drop n) i < 0xfc) ↔
        (n + i < input.length ∧ getB input (n + i) < 0xfc) := by
      rw [getB_drop, List.length_drop]
      omega
    by_cases h : n + i < input.length ∧ getB input (n + i) < 0xfc
    · rw [if_pos h, if_pos (hcond.mpr h)]
      dsimp only
      rw [getB_drop, decodeStep_drop]
      dsimp only
      rw [Nat.add_comm (decodeStep (input.drop n) i (getB input (n + i)) out op).1 n]
      exact ih _ _ _
    · rw [if_neg h, if_neg (fun hcc => h (hcond.mp hcc))]
      simp [Nat.add_comm]

/-- Fuel adequacy: any fuel covering the remaining input yields the same
result (each iteration consumes at least two input bytes, so
`input.length` iterations always suffice). -/
theorem decodeLoop_fuel (input : List Nat) :
    ∀ f1 f2 inpos out op, input.length ≤ inpos + f1 → input.length ≤ inpos + f2 →
      decodeLoop input f1 inpos out op = decodeLoop input f2 inpos out op := by
  intro f1
  induction f1 with
  | zero =>
    intro f2 inpos out op h1 h2
    rw [decodeLoop_stop input 0 inpos out op (by omega),
      decodeLoop_stop input f2 inpos out op (by omega)]
  | succ f1 ih =>
    intro f2 inpos out op h1 h2
    by_cases h : inpos < input.length ∧ getB input inpos < 0xfc
    · cases f2 with
      | zero => omega
      | succ f2 =>
        unfold decodeLoop
        rw [if_pos h, if_pos h]
        dsimp only
        have hadv := decodeStep_advance input inpos (getB input inpos) out op
        exact ih f2 _ _ _ (by omega) (by omega)
    · cases f2 with
      | zero =>
        unfold decodeLoop
        rw [if_neg h]
      | succ f2 =>
        unfold decodeLoop
        rw [if_neg h, if_neg h]

/-- `decompress` on a header followed by a token stream runs the loop and
trailing step on the token stream itself. -/
theorem decodeRun_append (pre rest : List Nat) (size : Nat) :
    decodeRun (pre ++ rest) pre.length size = runTokens rest size := by
  unfold decodeRun runTokens finishRun
  have hdrop : (pre ++ rest).drop pre.length = rest := by
    simp
  have hloop : decodeLoop (pre ++ rest) (pre ++ rest).length pre.length
      (List.replicate size 0) (some 0) =
      ((decodeLoop rest rest.length 0 (List.replicate size 0) (some 0)).1 + pre.length,
        (decodeLoop rest rest.length 0 (List.replicate size 0) (some 0)).2) := by
    have h1 := decodeLoop_drop (pre ++ rest) pre.length (pre ++ rest).length 0
      (List.replicate size 0) (some 0)
    rw [Nat.add_zero] at h1
    rw [h1, hdrop]
    rw [decodeLoop_fuel rest (pre ++ rest).length rest.length 0 (List.replicate size 0) (some 0)
      (by simp) (by simp)]
  rw [hloop]
  dsimp only
  cases hp : (decodeLoop rest rest.length 0 (List.replicate size 0) (some 0)).2.2 with
  | none => rfl
  | some p =>
    dsimp only
    have hiff : (decodeLoop rest rest.length 0 (List.replicate size 0) (some 0)).1 + pre.length <
        (pre ++ rest).length ↔
        (decodeLoop rest rest.length 0 (List.replicate size 0) (some 0)).1 < rest.length := by
      simp [List.length_append]
      omega
    by_cases hcond : (decodeLoop rest rest.length 0 (List.replicate size 0) (some 0)).1 <
        rest.length ∧ p < (decodeLoop rest rest.length 0 (List.replicate size 0) (some 0)).2.1.length
    · rw [if_pos ⟨hiff.mpr hcond.1, hcond.2⟩, if_pos hcond]
      have hgb : getB (pre ++ rest)
          ((decodeLoop rest rest.length 0 (List.replicate size 0) (some 0)).1 + pre.length) =
          getB rest (decodeLoop rest rest.length 0 (List.replicate size 0) (some 0)).1 := by
        rw [Nat.add_comm, ← getB_drop, hdrop]
      have hlc : ∀ len out,
          litCopy out (some p) (pre ++ rest)
            ((decodeLoop rest rest.length 0 (List.replicate size 0) (some 0)).1 + pre.length + 1)
            len =
          litCopy out (some p) rest
            ((decodeLoop rest rest.length 0 (List.replicate size 0) (some 0)).1 + 1) len := by
        intro len out
        have h1 := litCopy_drop (pre ++ rest) pre.length len out (some p)
          ((decodeLoop rest rest.length 0 (List.replicate size 0) (some 0)).1 + 1)
        rw [hdrop] at h1
        rw [show (decodeLoop rest rest.length 0 (List.replicate size 0) (some 0)).1 +
            pre.length + 1 =
            pre.length + ((decodeLoop rest rest.length 0 (List.replicate size 0) (some 0)).1 + 1)
          from by omega, ← h1]
      rw [hgb, hlc]
    · rw [if_neg (fun hcc => hcond ⟨hiff.mp hcc.1, hcc.2⟩), if_neg hcond]

/-! ### Length preservation through the decoder -/

theorem wr_length (out : List Nat) (i v : Nat) : (wr out i v).length = out.length := by
  simp [wr]

theorem litCopy_length (input : List Nat) :
    ∀ n out dst src, (litCopy out dst input src n).length = out.length := by
  intro n
  induction n with
  | zero => intro out dst src; rfl
  | succ n ih =>
    intro out dst src
    cases dst with
    | none => rfl
    | some d =>
      show (litCopy (wr out d (getB input src)) (some (d+1)) input (src+1) n).length = _
      rw [ih, wr_length]

theorem backCopy_length :
    ∀ n out dst src, (backCopy out dst src n).length = out.length := by
  intro n
  induction n with
  | zero => intro out dst src; cases dst <;> rfl
  | succ n ih =>
    intro out dst src
    cases dst with
    | none => rfl
    | some d =>
      show (backCopy (wr out d _) (some (d+1)) (Option.map (· + 1) src) n).length = _
      rw [ih, wr_length]

theorem decodeStep_length (input : List Nat) (inpos code : Nat) (out : List Nat)
    (op : Option Nat) : (decodeStep input inpos code out op).2.1.length = out.length := by
  unfold decodeStep
  dsimp only
  split
  · dsimp only
    rw [backCopy_length, litCopy_length]
  · split
    · dsimp only
      rw [backCopy_length, litCopy_length]
    · split
      · split
        · dsimp only
          rw [litCopy_length]
        · dsimp only
          rw [backCopy_length, litCopy_length]
      · dsimp only
        rw [litCopy_length]

theorem decodeLoop_length (input : List Nat) :
    ∀ fuel inpos out op, (decodeLoop input fuel inpos out op).2.1.length = out.length := by
  intro fuel
  induction fuel with
  | zero => intro inpos out op; rfl
  | succ fuel ih =>
    intro inpos out op
    unfold decodeLoop
    split
    · rw [ih, decodeStep_length]
    · rfl

theorem decodeRun_length (input : List Nat) (start size : Nat) :
    (decodeRun input start size).1.length = size := by
  unfold decodeRun
  dsimp only
  split
  · split
    · dsimp only
      rw [litCopy_length, decodeLoop_length, List.length_replicate]
    · dsimp only
      rw [decodeLoop_length, List.length_replicate]
  · dsimp only
    rw [decodeLoop_length, List.length_replicate]

/-- Claim C2: at every encoding position the best match length discovered by
the hash-chain search is at most the number of remaining input bytes
(`input.length - inpos`), so the source's end-of-input branch
(`if (bestlen > input.length - inpos)`) never fires and no emitted match
token encodes bytes past the end of the input: an accepted match advances
`lastwrot` to `inpos + bestlen ≤ input.length`. -/
theorem search_within_input (input : List Nat) (W : Nat) (rs : Nat → Int)
    (inpos : Nat) (offs : Int) (h : inpos + 2 ≤ input.length) :
    (search input W rs inpos QFS_MAXITER offs 0 0).1 ≤ input.length - inpos ∧
    ¬ (((search input W rs inpos QFS_MAXITER offs 0 0).1 : Int) >
        (input.length : Int) - (inpos : Int)) := by
  have h1 := search_le input W rs inpos QFS_MAXITER offs 0 0 h (by omega)
  exact ⟨h1, by omega⟩

/-- Witness for C2 at a concrete search state. -/
theorem search_within_input_witness :
    (search [1, 2, 1, 2, 1, 2] 131072 (fun _ => (-1 : Int)) 2 QFS_MAXITER 0 0 0).1 ≤ 4 ∧
    ¬ (((search [1, 2, 1, 2, 1, 2] 131072 (fun _ => (-1 : Int)) 2 QFS_MAXITER 0 0 0).1 : Int) >
        (6 : Int) - (2 : Int)) :=
  search_within_input [1, 2, 1, 2, 1, 2] 131072 (fun _ => (-1 : Int)) 2 0 (by decide)

/-- Claim C6: the crafted stream `header(11), 0x1D, 0x00, 'a', 0xFC` holds a
two-byte match token with `literalLen = 1`, `matchLen = 10`, `offset = 1`;
the self-overlapping back-copy is performed one byte at a time, so it
decodes to eleven copies of `'a'`. -/
theorem decode_self_overlap :
    decompress [0x10, 0xfb, 0, 0, 11, 0x1d, 0x00, 0x61, 0xfc] =
      .ok (List.replicate 11 0x61) := by decide

/-- On an input passing the magic check, `decompress` never reports
`InvalidMagic`. -/
theorem decompress_ne_invalidMagic (input : List Nat)
    (hm : (jsGet input 0 = some 0x10 ∨ jsGet input 0 = some 0x11) ∧
      jsGet input 1 = some 0xfb) :
    decompress input ≠ .error .invalidMagic := by
  simp only [decompress, if_pos hm]
  split
  · simp
  · split
    · split <;> simp
    · simp

/-- Claim C9: `decompress` fails with `InvalidMagic` exactly when the first
two bytes are not one of `{0x10, 0x11}` followed by `0xfb`; an input
shorter than two bytes (its reads yield `undefined`) always fails so. -/
theorem magic_rejection (input : List Nat) :
    (decompress input = .error .invalidMagic ↔
      ¬ ((jsGet input 0 = some 0x10 ∨ jsGet input 0 = some 0x11) ∧
          jsGet input 1 = some 0xfb)) ∧
    (input.length < 2 → decompress input = .error .invalidMagic) := by
  by_cases hm : ((jsGet input 0 = some 0x10 ∨ jsGet input 0 = some 0x11) ∧
      jsGet input 1 = some 0xfb)
  · refine ⟨⟨fun hc => absurd hc (decompress_ne_invalidMagic input hm), fun hn => absurd hm hn⟩,
      fun hlen => ?_⟩
    exfalso
    have h1 : jsGet input 1 = none := by
      simp only [jsGet, List.get?_eq_none]
      omega
    rw [h1] at hm
    exact Option.noConfusion hm.2
  · have he : decompress input = .error .invalidMagic := by
      simp only [decompress, if_neg hm]
    exact ⟨⟨fun _ => hm, fun _ => he⟩, fun _ => he⟩

/-- Witness for C9 at the test suite's garbage input. -/
theorem magic_rejection_witness : decompress [0, 3, 4, 2, 3] = .error .invalidMagic :=
  (magic_rejection [0, 3, 4, 2, 3]).1.mpr (by decide)

/-- Claim C8: `compress` (default options) fails, with `InputTooLarge`, if
and only if the input length exceeds `0xffffff`; in particular it fails on
length `0x1000000` and succeeds on length `0xffffff`.  The check is the
first thing `compress` does. -/
theorem size_ceiling :
    (∀ b : List Nat, compressD b = .error .inputTooLarge ↔ 0xffffff < b.length) ∧
    compressD (List.replicate 0x1000000 0) = .error .inputTooLarge ∧
    (∃ out, compressD (List.replicate 0xffffff 0) = .ok out) := by
  have key : ∀ b : List Nat, compressD b = .error .inputTooLarge ↔ 0xffffff < b.length := by
    intro b
    unfold compressD compress
    split
    · rename_i h; simpa using h
    · rename_i h
      constructor
      · intro hc; exact Except.noConfusion hc
      · intro hl; exact absurd hl h
  refine ⟨key, ?_, ?_⟩
  · rw [key, List.length_replicate]
    norm_num
  · unfold compressD compress
    rw [if_neg (show ¬ ((List.replicate 0xffffff (0 : Nat)).length > 0xffffff) by
      rw [List.length_replicate]; omega)]
    exact ⟨_, rfl⟩

/-- Claim C5: for every input within the size limit, the compressed output
starts with exactly `0x10` (never the extended `0x11` magic), `0xfb`, and
the input length as a 3-byte big-endian integer, and the header therefore
decodes to `uncompressedSize = input.length`. -/
theorem header_fidelity (b : List Nat) (h : b.length ≤ 0xffffff) :
    ∃ out, compressD b = .ok out ∧
      out.take 5 = [0x10, 0xfb, b.length >>> 16,
        (b.length >>> 8) &&& 0xff, b.length &&& 0xff] ∧
      declaredSize out = b.length := by
  unfold compressD compress
  rw [if_neg (by omega)]
  refine ⟨_, rfl, ?_, ?_⟩
  · have e16 : (b.length >>> 16) % 256 = b.length >>> 16 := by
      rw [shr16]; omega
    have e8 : ((b.length >>> 8) &&& 0xff) % 256 = (b.length >>> 8) &&& 0xff := by
      rw [and_255]; omega
    have e0 : (b.length &&& 0xff) % 256 = b.length &&& 0xff := by
      rw [and_255]; omega
    simp [e16, e8, e0]
  · unfold declaredSize
    rw [getB_at2, getB_at3, getB_at4, and_255, and_255, shr16, shr8]
    omega

/-- Witness for C5 at a concrete input. -/
theorem header_fidelity_witness :
    ∃ out, compressD [1, 2, 3] = .ok out ∧
      out.take 5 = [0x10, 0xfb, [1, 2, 3].length >>> 16,
        ([1, 2, 3].length >>> 8) &&& 0xff, [1, 2, 3].length &&& 0xff] ∧
      declaredSize out = [1, 2, 3].length :=
  header_fidelity [1, 2, 3] (by decide)

/-- Counterexample to claim C4: on this stream with magic `0x11` the source
starts token decoding at offset 8 (`input[0] & 0x01 ? 8 : 5`), not at
offset 9 as the claim states: decoding the terminal token at offset 8
yields `"abc"`, while the 9-byte-header variant described by the spec
(`decompressSpec9`) fails with `Corrupt` on the same stream. -/
theorem header_offset_counterexample :
    decompress [0x11, 0xfb, 0, 0, 3, 7, 7, 7, 0xff, 97, 98, 99] = .ok [97, 98, 99] ∧
    decompressSpec9 [0x11, 0xfb, 0, 0, 3, 7, 7, 7, 0xff, 97, 98, 99] = .error .corrupt := by
  decide

/-- Claim C10: `decompress` terminates on every input, corrupt ones
included: every iteration of the token-decoding loop advances the read
position by at least 2, the loop guard bounds the position by the input
length, and consequently the result is the same for every fuel covering the
remaining input — in particular the `input.length` iterations `decompress`
allows always reach the loop's exit. -/
theorem decode_terminates (input : List Nat) :
    (∀ inpos out op, inpos < input.length → getB input inpos < 0xfc →
      inpos + 2 ≤ (decodeStep input inpos (getB input inpos) out op).1) ∧
    (∀ f1 f2 inpos out op, input.length ≤ inpos + f1 → input.length ≤ inpos + f2 →
      decodeLoop input f1 inpos out op = decodeLoop input f2 inpos out op) :=
  ⟨fun inpos out op _ _ => decodeStep_advance input inpos (getB input inpos) out op,
   decodeLoop_fuel input⟩

/-- Witness for C10 on a concrete stream. -/
theorem decode_terminates_witness :
    0 + 2 ≤ (decodeStep [0xe0, 1, 2, 3, 4, 0xfc] 0 (getB [0xe0, 1, 2, 3, 4, 0xfc] 0) []
      (some 0)).1 ∧
    decodeLoop [0xe0, 1, 2, 3, 4, 0xfc] 6 0 (List.replicate 4 0) (some 0) =
      decodeLoop [0xe0, 1, 2, 3, 4, 0xfc] 99 0 (List.replicate 4 0) (some 0) :=
  ⟨(decode_terminates [0xe0, 1, 2, 3, 4, 0xfc]).1 0 [] (some 0) (by decide) (by decide),
   (decode_terminates [0xe0, 1, 2, 3, 4, 0xfc]).2 6 99 0 (List.replicate 4 0) (some 0)
     (by decide) (by decide)⟩

/-- Amended claim C4: a header whose magic byte is `0x11` is 8 bytes long:
the three bytes at offsets 5..7 are skipped (their content never affects
the result) and token decoding begins at input offset 8 — exactly as it
begins at offset 5 after a 5-byte `0x10` header over the same token
stream. -/
theorem extended_header_length (s1 s2 s3 u v w : Nat) (rest : List Nat) :
    decompress (0x11 :: 0xfb :: s1 :: s2 :: s3 :: u :: v :: w :: rest) =
      decompress (0x10 :: 0xfb :: s1 :: s2 :: s3 :: rest) := by
  have e1 : decompress (0x11 :: 0xfb :: s1 :: s2 :: s3 :: u :: v :: w :: rest) =
      (match (runTokens rest (0x10000 * s1 + 0x100 * s2 + s3)).2 with
        | some p => if p = (runTokens rest (0x10000 * s1 + 0x100 * s2 + s3)).1.length
            then Except.ok (runTokens rest (0x10000 * s1 + 0x100 * s2 + s3)).1
            else Except.error DErr.corrupt
        | none => Except.error DErr.corrupt) := by
    unfold decompress
    rw [if_pos ⟨Or.inr rfl, rfl⟩,
      if_neg (show ¬ (0x11 :: 0xfb :: s1 :: s2 :: s3 :: u :: v :: w :: rest).length < 5 by
        simp)]
    have hruns := decodeRun_append [0x11, 0xfb, s1, s2, s3, u, v, w] rest
      (0x10000 * s1 + 0x100 * s2 + s3)
    have hh : headerLen (0x11 :: 0xfb :: s1 :: s2 :: s3 :: u :: v :: w :: rest) =
        [0x11, 0xfb, s1, s2, s3, u, v, w].length := by
      unfold headerLen
      rw [getB_at0]
      norm_num
    have hd : declaredSize (0x11 :: 0xfb :: s1 :: s2 :: s3 :: u :: v :: w :: rest) =
        0x10000 * s1 + 0x100 * s2 + s3 := rfl
    have hsplit : (0x11 :: 0xfb :: s1 :: s2 :: s3 :: u :: v :: w :: rest) =
        [0x11, 0xfb, s1, s2, s3, u, v, w] ++ rest := rfl
    rw [hh, hd, hsplit, hruns]
  have e2 : decompress (0x10 :: 0xfb :: s1 :: s2 :: s3 :: rest) =
      (match (runTokens rest (0x10000 * s1 + 0x100 * s2 + s3)).2 with
        | some p => if p = (runTokens rest (0x10000 * s1 + 0x100 * s2 + s3)).1.length
            then Except.ok (runTokens rest (0x10000 * s1 + 0x100 * s2 + s3)).1
            else Except.error DErr.corrupt
        | none => Except.error DErr.corrupt) := by
    unfold decompress
    rw [if_pos ⟨Or.inl rfl, rfl⟩,
      if_neg (show ¬ (0x10 :: 0xfb :: s1 :: s2 :: s3 :: rest).length < 5 by simp)]
    have hruns := decodeRun_append [0x10, 0xfb, s1, s2, s3] rest
      (0x10000 * s1 + 0x100 * s2 + s3)
    have hh : headerLen (0x10 :: 0xfb :: s1 :: s2 :: s3 :: rest) =
        [0x10, 0xfb, s1, s2, s3].length := by
      unfold headerLen
      rw [getB_at0]
      norm_num
    have hd : declaredSize (0x10 :: 0xfb :: s1 :: s2 :: s3 :: rest) =
        0x10000 * s1 + 0x100 * s2 + s3 := rfl
    have hsplit : (0x10 :: 0xfb :: s1 :: s2 :: s3 :: rest) =
        [0x10, 0xfb, s1, s2, s3] ++ rest := rfl
    rw [hh, hd, hsplit, hruns]
  rw [e1, e2]

/-- Claim C7: once the magic and header-size reads succeed, `decompress`
fails with `Corrupt` exactly when the final write position after the token
loop and the trailing-literals step is not the header-declared size (a
`NaN` write position compares unequal); on that failure no output is
returned. -/
theorem corrupt_iff (input : List Nat) :
    (decompress input = .error .corrupt ↔
      ((jsGet input 0 = some 0x10 ∨ jsGet input 0 = some 0x11) ∧
        jsGet input 1 = some 0xfb) ∧
      5 ≤ input.length ∧
      (decodeRun input (headerLen input) (declaredSize input)).2 ≠
        some (declaredSize input)) ∧
    (∀ l : List Nat, decompress input = .error .corrupt → decompress input ≠ .ok l) := by
  constructor
  · by_cases hm : ((jsGet input 0 = some 0x10 ∨ jsGet input 0 = some 0x11) ∧
        jsGet input 1 = some 0xfb)
    · by_cases hlen : input.length < 5
      · have he : decompress input = .error .invalidSize := by
          simp only [decompress, if_pos hm, if_pos hlen]
        rw [he]
        constructor
        · intro hc; exact absurd (Except.error.inj hc) (by intro hh; cases hh)
        · intro hc; omega
      · have hlen5 : 5 ≤ input.length := by omega
        have hsz : (decodeRun input (headerLen input) (declaredSize input)).1.length =
            declaredSize input := decodeRun_length input _ _
        have he : decompress input =
            (match (decodeRun input (headerLen input) (declaredSize input)).2 with
              | some p =>
                if p = (decodeRun input (headerLen input) (declaredSize input)).1.length
                then Except.ok (decodeRun input (headerLen input) (declaredSize input)).1
                else Except.error DErr.corrupt
              | none => Except.error DErr.corrupt) := by
          simp only [decompress, if_pos hm, if_neg hlen]
        rw [he]
        cases hp : (decodeRun input (headerLen input) (declaredSize input)).2 with
        | none =>
          simp only []
          constructor
          · intro _; exact ⟨hm, hlen5, by simp⟩
          · intro _; trivial
        | some p =>
          simp only []
          by_cases hpe : p = (decodeRun input (headerLen input) (declaredSize input)).1.length
          · rw [if_pos hpe]
            constructor
            · intro hc; exact Except.noConfusion hc
            · intro hrhs
              exfalso
              apply hrhs.2.2
              rw [hpe, hsz]
          · rw [if_neg hpe]
            constructor
            · intro _
              refine ⟨hm, hlen5, ?_⟩
              rw [← hsz]
              intro hcc
              exact hpe (Option.some.inj hcc)
            · intro _; rfl
    · have he : decompress input = .error .invalidMagic := by
        simp only [decompress, if_neg hm]
      rw [he]
      constructor
      · intro hc; exact absurd (Except.error.inj hc) (by intro hh; cases hh)
      · intro hc; exact absurd hc.1 hm
  · intro l hc
    rw [hc]
    intro hh
    exact Except.noConfusion hh

/-- Witness for C7: a stream that declares 5 bytes but decodes none. -/
theorem corrupt_iff_witness :
    decompress [0x10, 0xfb, 0, 0, 5, 0xfc] = .error .corrupt :=
  (corrupt_iff [0x10, 0xfb, 0, 0, 5, 0xfc]).1.mpr (by decide)

/-- Counterexample to claim C3: compressing 124 bytes with no repeated
2-byte pair flushes the final 124-byte gap as TWO raw runs — control byte
`0xfb` (112 literals) followed by control byte `0xe2` (12 literals) — not
as one `RawRun` token of 124 literals, whose control byte would have been
`0xe0 + (124/4 - 1) = 0xfe`. -/
theorem fill_cap_counterexample :
    compressD (List.range 124) = .ok ([0x10, 0xfb, 0, 0, 124, 0xfb] ++ List.range 112 ++
      0xe2 :: (List.range 12).map (· + 112) ++ [0xfc]) ∧
    (0xfb : Nat) ≠ 0xe0 + (124 / 4 - 1) := by
  constructor
  · decide
  · decide

/-- Amended claim C3: `fill` flushes an unencoded gap as raw-run tokens
whose literal lengths are multiples of 4 in `4..=112` (control byte
`0xe0 + (len/4 - 1)` with the length field capped at `0x1b`), repeating
until the gap is under 4 bytes; a single token covers at most 112 literal
bytes, so a gap of exactly 124 bytes is flushed as two tokens (112 then 12
literals). -/
theorem fillL_le (gap : Nat) : fillL gap ≤ 0x1b := by
  unfold fillL
  split <;> omega

theorem fillL_cnt_le (gap : Nat) (h : gap ≥ 4) : 4 * fillL gap + 4 ≤ gap := by
  unfold fillL
  have h4 : gap / 4 * 4 ≤ gap := Nat.div_mul_le_self _ 4
  split <;> omega

/-- One unfolding of `fillBytes` when the gap is at least 4 bytes wide. -/
theorem fillBytes_step (input : List Nat) (f lw ip : Nat) (h : ip - lw ≥ 4) :
    fillBytes input (f+1) lw ip =
      (((0xe0 + fillL (ip - lw)) % 256) ::
        (seg input lw (4 * fillL (ip - lw) + 4) ++
          (fillBytes input f (lw + (4 * fillL (ip - lw) + 4)) ip).1),
        (fillBytes input f (lw + (4 * fillL (ip - lw) + 4)) ip).2) := by
  conv_lhs => rw [fillBytes]
  rw [if_pos h]
  dsimp only
  simp only [fillL]

theorem fillLens_step (f gap : Nat) (h : gap ≥ 4) :
    fillLens (f+1) gap = (4 * fillL gap + 4) :: fillLens f (gap - (4 * fillL gap + 4)) := by
  conv_lhs => rw [fillLens]
  rw [if_pos h]

theorem fillBytes_spec (input : List Nat) :
    ∀ f lw ip, lw ≤ ip → ip - lw ≤ f →
      (fillBytes input f lw ip).1 = renderRuns input lw (fillLens f (ip - lw)) ∧
      (fillBytes input f lw ip).2 = lw + (fillLens f (ip - lw)).sum ∧
      ip - (fillBytes input f lw ip).2 < 4 ∧
      (∀ c ∈ fillLens f (ip - lw), c % 4 = 0 ∧ 4 ≤ c ∧ c ≤ 112) ∧
      (fillBytes input f lw ip).2 ≤ ip := by
  intro f
  induction f with
  | zero =>
    intro lw ip hle hf
    refine ⟨rfl, by simp [fillBytes, fillLens], by simp only [fillBytes]; omega,
      by simp [fillLens], by simp only [fillBytes]; omega⟩
  | succ f ih =>
    intro lw ip hle hf
    by_cases hgap : ip - lw ≥ 4
    · have hl0 := fillL_le (ip - lw)
      have hcnt4 := fillL_cnt_le (ip - lw) hgap
      have hgap' : ip - (lw + (4 * fillL (ip - lw) + 4)) = ip - lw - (4 * fillL (ip - lw) + 4) := by
        omega
      have hrec := ih (lw + (4 * fillL (ip - lw) + 4)) ip (by omega) (by omega)
      rw [hgap'] at hrec
      rw [fillBytes_step input f lw ip hgap, fillLens_step f (ip - lw) hgap]
      refine ⟨?_, ?_, ?_, ?_, ?_⟩
      · dsimp only
        rw [hrec.1]
        simp only [renderRuns]
        rw [show (4 * fillL (ip - lw) + 4) / 4 - 1 = fillL (ip - lw) by omega]
      · dsimp only
        rw [hrec.2.1, List.sum_cons]
        omega
      · dsimp only
        have := hrec.2.2.1
        omega
      · intro c hc
        rcases List.mem_cons.mp hc with hc1 | hc2
        · subst hc1
          exact ⟨by omega, by omega, by omega⟩
        · exact hrec.2.2.2.1 c hc2
      · dsimp only
        exact hrec.2.2.2.2
    · have hstep1 : fillBytes input (f+1) lw ip = ([], lw) := by
        conv_lhs => rw [fillBytes]
        rw [if_neg hgap]
      have hstep2 : fillLens (f+1) (ip - lw) = [] := by
        conv_lhs => rw [fillLens]
        rw [if_neg hgap]
      rw [hstep1, hstep2]
      refine ⟨rfl, by simp, by omega, by simp, by omega⟩

theorem fill_runs (input : List Nat) :
    ∀ f lw ip, lw ≤ ip → ip - lw ≤ f →
      (fillBytes input f lw ip).1 = renderRuns input lw (fillLens f (ip - lw)) ∧
      (fillBytes input f lw ip).2 = lw + (fillLens f (ip - lw)).sum ∧
      ip - (fillBytes input f lw ip).2 < 4 ∧
      (∀ c ∈ fillLens f (ip - lw), c % 4 = 0 ∧ 4 ≤ c ∧ c ≤ 112) := by
  intro f lw ip h1 h2
  obtain ⟨a1, a2, a3, a4, _⟩ := fillBytes_spec input f lw ip h1 h2
  exact ⟨a1, a2, a3, a4⟩

/-- Witness for C3's amended claim at a gap of 124 bytes. -/
theorem fill_runs_witness :
    (fillBytes (List.range 124) 124 0 124).1 =
      renderRuns (List.range 124) 0 (fillLens 124 124) ∧
    (fillBytes (List.range 124) 124 0 124).2 = 0 + (fillLens 124 124).sum ∧
    124 - (fillBytes (List.range 124) 124 0 124).2 < 4 ∧
    (∀ c ∈ fillLens 124 124, c % 4 = 0 ∧ 4 ≤ c ∧ c ≤ 112) :=
  fill_runs (List.range 124) 124 0 124 (by decide) (by decide)

/-! ### Prefix reconstruction: the decoder rebuilds the input byte by byte -/

theorem getB_lt_256 (b : List Nat) (hB : Bytes b) (i : Nat) : getB b i < 256 := by
  unfold getB
  cases hg : b.get? i with
  | none => simp
  | some v =>
    have hv : v ∈ b := List.get?_mem hg
    simpa using hB v hv

theorem getB_mod (b : List Nat) (hB : Bytes b) (i : Nat) : getB b i % 256 = getB b i :=
  Nat.mod_eq_of_lt (getB_lt_256 b hB i)

theorem get?_eq_getB (l : List Nat) (j : Nat) (h : j < l.length) :
    l.get? j = some (getB l j) := by
  unfold getB
  cases hg : l.get? j with
  | none =>
    rw [List.get?_eq_none] at hg
    omega
  | some v => simp

/-- A buffer of the right length agreeing with `b` on every position is
`b`. -/
theorem pref_eq (b out : List Nat) (hlen : out.length = b.length)
    (hpref : ∀ j, j < b.length → getB out j = getB b j) : out = b := by
  apply List.ext_get?
  intro j
  by_cases hj : j < b.length
  · rw [get?_eq_getB out j (by omega), get?_eq_getB b j hj, hpref j hj]
  · rw [List.get?_eq_none.mpr (by omega), List.get?_eq_none.mpr (by omega)]

theorem getB_wr_self (out : List Nat) (p v : Nat) (h : p < out.length) :
    getB (wr out p v) p = v % 256 := by
  unfold wr getB
  rw [List.get?_set_eq_of_lt _ h]
  simp

theorem getB_wr_ne (out : List Nat) (p j v : Nat) (h : p ≠ j) :
    getB (wr out p v) j = getB out j := by
  unfold wr getB
  rw [List.get?_set_ne _ _ h]

theorem getB_cons_succ (x : Nat) (l : List Nat) (k : Nat) :
    getB (x :: l) (k + 1) = getB l k := rfl

theorem getB_append_lt (l1 l2 : List Nat) (k : Nat) (h : k < l1.length) :
    getB (l1 ++ l2) k = getB l1 k := by
  unfold getB
  rw [List.get?_append h]

theorem seg_length (input : List Nat) (s n : Nat) : (seg input s n).length = n := by
  simp [seg]

theorem seg_getB (input : List Nat) (s n k : Nat) (h : k < n) :
    getB (seg input s n) k = getB input (s + k) % 256 := by
  unfold seg getB
  rw [List.get?_map, List.get?_range h]
  simp

/-- `litCopy` into `out` at `p` of values that are `b`'s bytes extends the
reconstructed prefix. -/
theorem litCopy_pref (b S : List Nat) :
    ∀ n out p src,
      out.length = b.length →
      (∀ j, j < p → getB out j = getB b j) →
      (∀ k, k < n → getB S (src + k) % 256 = getB b (p + k)) →
      p + n ≤ b.length →
      (litCopy out (some p) S src n).length = b.length ∧
      ∀ j, j < p + n → getB (litCopy out (some p) S src n) j = getB b j := by
  intro n
  induction n with
  | zero =>
    intro out p src hlen hpref _ _
    exact ⟨hlen, fun j hj => hpref j (by omega)⟩
  | succ n ih =>
    intro out p src hlen hpref hvals hin
    have hunf : litCopy out (some p) S src (n+1) =
        litCopy (wr out p (getB S src)) (some (p+1)) S (src+1) n := rfl
    rw [hunf]
    have hplen : p < out.length := by omega
    have hlen' : (wr out p (getB S src)).length = b.length := by
      rw [wr_length]; exact hlen
    have hpref' : ∀ j, j < p + 1 → getB (wr out p (getB S src)) j = getB b j := by
      intro j hj
      by_cases hjp : j = p
      · subst hjp
        rw [getB_wr_self out j _ hplen]
        simpa using hvals 0 (by omega)
      · rw [getB_wr_ne out p j _ (by omega)]
        exact hpref j (by omega)
    have hvals' : ∀ k, k < n → getB S (src + 1 + k) % 256 = getB b (p + 1 + k) := by
      intro k hk
      have h1 := hvals (k+1) (by omega)
      rw [show src + (k+1) = src + 1 + k from by omega,
        show p + (k+1) = p + 1 + k from by omega] at h1
      exact h1
    have hrec := ih (wr out p (getB S src)) (p+1) (src+1) hlen' hpref' hvals' (by omega)
    exact ⟨hrec.1, fun j hj => hrec.2 j (by omega)⟩

/-- The self-overlapping back-copy, performed one byte at a time, extends
the reconstructed prefix whenever the match property holds. -/
theorem backCopy_pref (b : List Nat) (hB : Bytes b) (bo : Nat) (hbo1 : 1 ≤ bo) :
    ∀ n out p,
      out.length = b.length →
      (∀ j, j < p → getB out j = getB b j) →
      bo ≤ p →
      (∀ k, k < n → getB b (p - bo + k) = getB b (p + k)) →
      p + n ≤ b.length →
      (backCopy out (some p) (some ((p : Int) - (bo : Int))) n).length = b.length ∧
      ∀ j, j < p + n →
        getB (backCopy out (some p) (some ((p : Int) - (bo : Int))) n) j = getB b j := by
  intro n
  induction n with
  | zero =>
    intro out p hlen hpref _ _ _
    exact ⟨hlen, fun j hj => hpref j (by omega)⟩
  | succ n ih =>
    intro out p hlen hpref hbop hmatch hin
    have hunf : backCopy out (some p) (some ((p : Int) - (bo : Int))) (n+1) =
        backCopy (wr out p (rdO out ((p : Int) - (bo : Int)))) (some (p+1))
          (Option.map (· + 1) (some ((p : Int) - (bo : Int)))) n := rfl
    rw [hunf]
    have hsrc : rdO out ((p : Int) - (bo : Int)) = getB b (p - bo) := by
      unfold rdO
      rw [if_pos (by omega)]
      rw [show ((p : Int) - (bo : Int)).toNat = p - bo from by omega]
      exact hpref (p - bo) (by omega)
    have hmap : Option.map (· + 1) (some ((p : Int) - (bo : Int))) =
        some ((((p+1) : Nat) : Int) - (bo : Int)) := by
      have harith : ((p : Int) - (bo : Int)) + 1 = (((p+1) : Nat) : Int) - (bo : Int) := by
        push_cast
        ring
      rw [show Option.map (· + 1) (some ((p : Int) - (bo : Int))) =
        some (((p : Int) - (bo : Int)) + 1) from rfl, harith]
    rw [hsrc, hmap]
    have hplen : p < out.length := by omega
    have hlen' : (wr out p (getB b (p - bo))).length = b.length := by
      rw [wr_length]; exact hlen
    have hpref' : ∀ j, j < p + 1 → getB (wr out p (getB b (p - bo))) j = getB b j := by
      intro j hj
      by_cases hjp : j = p
      · subst hjp
        rw [getB_wr_self out j _ hplen, getB_mod b hB]
        simpa using hmatch 0 (by omega)
      · rw [getB_wr_ne out p j _ (by omega)]
        exact hpref j (by omega)
    have hmatch' : ∀ k, k < n → getB b (p + 1 - bo + k) = getB b (p + 1 + k) := by
      intro k hk
      have h1 := hmatch (k+1) (by omega)
      rw [show p - bo + (k+1) = p + 1 - bo + k from by omega,
        show p + (k+1) = p + 1 + k from by omega] at h1
      exact h1
    have hrec := ih (wr out p (getB b (p - bo))) (p+1) hlen' hpref' (by omega) hmatch'
      (by omega)
    exact ⟨hrec.1, fun j hj => hrec.2 j (by omega)⟩

/-! ### Bit-extraction facts for the four control-byte shapes -/

theorem short_and128 : ∀ c < 128, c &&& 0x80 = 0 := by decide

theorem short_and3 : ∀ c < 128, c &&& 3 = c % 4 := by decide

theorem short_and1c : ∀ c < 128, (c &&& 0x1c) >>> 2 = c / 4 % 8 := by decide

theorem short_shr5 : ∀ c < 128, c >>> 5 = c / 32 := by decide

theorem med_and128 : ∀ t < 64, (0x80 + t) &&& 0x80 ≠ 0 := by decide

theorem med_and64 : ∀ t < 64, (0x80 + t) &&& 0x40 = 0 := by decide

theorem med_and63 : ∀ t < 64, (0x80 + t) &&& 0x3f = t := by decide

theorem long_and128 : ∀ t < 32, (0xc0 + t) &&& 0x80 ≠ 0 := by decide

theorem long_and64 : ∀ t < 32, (0xc0 + t) &&& 0x40 ≠ 0 := by decide

theorem long_and32 : ∀ t < 32, (0xc0 + t) &&& 0x20 = 0 := by decide

theorem long_and3 : ∀ t < 32, (0xc0 + t) &&& 3 = t % 4 := by decide

theorem long_shr2and3 : ∀ t < 32, ((0xc0 + t) >>> 2) &&& 3 = t / 4 % 4 := by decide

theorem long_and16 : ∀ t < 32, (0xc0 + t) &&& 0x10 = 16 * (t / 16) := by decide

theorem raw_and128 : ∀ t < 32, (0xe0 + t) &&& 0x80 ≠ 0 := by decide

theorem raw_and64 : ∀ t < 32, (0xe0 + t) &&& 0x40 ≠ 0 := by decide

theorem raw_and32 : ∀ t < 32, (0xe0 + t) &&& 0x20 ≠ 0 := by decide

theorem raw_and31 : ∀ t < 32, (0xe0 + t) &&& 0x1f = t := by decide

theorem term_and3 : ∀ g < 4, (0xfc + g) &&& 3 = g := by decide

theorem shl5_eq (x : Nat) : x <<< 5 = x * 32 := by
  rw [Nat.shiftLeft_eq]

theorem shl6_eq (x : Nat) : x <<< 6 = x * 64 := by
  rw [Nat.shiftLeft_eq]

theorem shl8_eq (x : Nat) : x <<< 8 = x * 256 := by
  rw [Nat.shiftLeft_eq]

theorem shl12_eq (x : Nat) : x <<< 12 = x * 4096 := by
  rw [Nat.shiftLeft_eq]

theorem shr6 (x : Nat) : x >>> 6 = x / 64 := Nat.shiftRight_eq_div_pow x 6

theorem emod_eq_mod (a b : Int) : a.emod b = a % b := rfl

/-! ### Sequencing: decoding a stream one emitted token at a time -/

/-- One guarded unfolding of the decoding loop. -/
theorem decodeLoop_succ_step (input : List Nat) (f inpos : Nat) (out : List Nat)
    (op : Option Nat) (h : inpos < input.length ∧ getB input inpos < 0xfc) :
    decodeLoop input (f+1) inpos out op =
      decodeLoop input f (decodeStep input inpos (getB input inpos) out op).1
        (decodeStep input inpos (getB input inpos) out op).2.1
        (decodeStep input inpos (getB input inpos) out op).2.2 := by
  conv_lhs => rw [decodeLoop]
  rw [if_pos h]

/-- `decodeLoop_drop` at a zero re-based position. -/
theorem decodeLoop_drop0 (input : List Nat) (n f : Nat) (out : List Nat) (op : Option Nat) :
    decodeLoop input f n out op =
      ((decodeLoop (input.drop n) f 0 out op).1 + n,
        (decodeLoop (input.drop n) f 0 out op).2) := by
  have h1 := decodeLoop_drop input n f 0 out op
  rwa [Nat.add_zero] at h1

/-- If one decoding step consumes exactly the first token of the stream,
finishing the whole stream equals finishing the remainder from the stepped
state. -/
theorem finishRun_chunk (tok rest : List Nat) (out out' : List Nat) (p p' : Nat)
    (htok : tok ≠ [])
    (hcode : getB (tok ++ rest) 0 < 0xfc)
    (hstep : decodeStep (tok ++ rest) 0 (getB (tok ++ rest) 0) out (some p) =
      (tok.length, out', some p')) :
    finishRun (tok ++ rest) out p = finishRun rest out' p' := by
  have htl : 1 ≤ tok.length := by
    cases tok with
    | nil => exact absurd rfl htok
    | cons a l => simp
  have hlen : (tok ++ rest).length = tok.length + rest.length := by simp
  have hloop : decodeLoop (tok ++ rest) (tok ++ rest).length 0 out (some p) =
      ((decodeLoop rest rest.length 0 out' (some p')).1 + tok.length,
        (decodeLoop rest rest.length 0 out' (some p')).2) := by
    rw [show (tok ++ rest).length = ((tok ++ rest).length - 1) + 1 from by omega,
      decodeLoop_succ_step (tok ++ rest) ((tok ++ rest).length - 1) 0 out (some p)
        ⟨by omega, hcode⟩, hstep]
    dsimp only
    rw [decodeLoop_drop0 (tok ++ rest) tok.length ((tok ++ rest).length - 1) out' (some p'),
      List.drop_left,
      decodeLoop_fuel rest ((tok ++ rest).length - 1) rest.length 0 out' (some p')
        (by omega) (by omega)]
  unfold finishRun
  rw [hloop]
  dsimp only
  cases hp2 : (decodeLoop rest rest.length 0 out' (some p')).2.2 with
  | none => rfl
  | some q =>
    dsimp only
    by_cases hcond : (decodeLoop rest rest.length 0 out' (some p')).1 < rest.length ∧
        q < (decodeLoop rest rest.length 0 out' (some p')).2.1.length
    · rw [if_pos (⟨by omega, hcond.2⟩ :
        (decodeLoop rest rest.length 0 out' (some p')).1 + tok.length <
          (tok ++ rest).length ∧
        q < (decodeLoop rest rest.length 0 out' (some p')).2.1.length), if_pos hcond]
      have hgb : getB (tok ++ rest)
          ((decodeLoop rest rest.length 0 out' (some p')).1 + tok.length) =
          getB rest (decodeLoop rest rest.length 0 out' (some p')).1 := by
        rw [Nat.add_comm, ← getB_drop, List.drop_left]
      have hlc : ∀ len oo,
          litCopy oo (some q) (tok ++ rest)
            ((decodeLoop rest rest.length 0 out' (some p')).1 + tok.length + 1) len =
          litCopy oo (some q) rest
            ((decodeLoop rest rest.length 0 out' (some p')).1 + 1) len := by
        intro len oo
        have h1 := litCopy_drop (tok ++ rest) tok.length len oo (some q)
          ((decodeLoop rest rest.length 0 out' (some p')).1 + 1)
        rw [List.drop_left] at h1
        rw [show (decodeLoop rest rest.length 0 out' (some p')).1 + tok.length + 1 =
            tok.length + ((decodeLoop rest rest.length 0 out' (some p')).1 + 1) from by omega,
          ← h1]
      rw [hgb, hlc]
    · rw [if_neg (by intro hcc; exact hcond ⟨by omega, hcc.2⟩), if_neg hcond]

/-- Decoding the final `fill` remainder: a terminal token `0xfc + g`
followed by its `g` trailing literal bytes finishes reconstruction. -/
theorem finishRun_terminal (b : List Nat) (hB : Bytes b) (g lw : Nat) (out : List Nat)
    (hg : g < 4) (hlw : lw + g = b.length)
    (hlen : out.length = b.length) (hpref : ∀ j, j < lw → getB out j = getB b j) :
    finishRun (((0xfc + g) % 256) :: seg b lw g) out lw = (b, some b.length) := by
  have hcode : getB (((0xfc + g) % 256) :: seg b lw g) 0 = 0xfc + g := by
    rw [getB_at0, Nat.mod_eq_of_lt (by omega)]
  have hstop : decodeLoop (((0xfc + g) % 256) :: seg b lw g)
      (((0xfc + g) % 256) :: seg b lw g).length 0 out (some lw) = (0, out, some lw) := by
    cases hfuel : (((0xfc + g) % 256) :: seg b lw g).length with
    | zero => simp at hfuel
    | succ f =>
      unfold decodeLoop
      rw [if_neg (by rw [hcode]; omega)]
  unfold finishRun
  rw [hstop]
  dsimp only
  by_cases hg0 : g = 0
  · subst hg0
    rw [if_neg (by intro hcc; omega)]
    have hout : out = b := pref_eq b out hlen (fun j hj => hpref j (by omega))
    rw [hout, show lw = b.length from by omega]
  · rw [if_pos ⟨by simp, by omega⟩]
    rw [hcode, term_and3 g hg]
    have hvals : ∀ k, k < g → getB (((0xfc + g) % 256) :: seg b lw g) (0 + 1 + k) % 256 =
        getB b (lw + k) := by
      intro k hk
      rw [show 0 + 1 + k = k + 1 from by omega, getB_cons_succ, seg_getB b lw g k hk]
      have := getB_lt_256 b hB (lw + k)
      omega
    have hlit := litCopy_pref b (((0xfc + g) % 256) :: seg b lw g) g out lw (0 + 1)
      hlen hpref hvals (by omega)
    have hout : litCopy out (some lw) (((0xfc + g) % 256) :: seg b lw g) (0 + 1) g = b :=
      pref_eq b _ hlit.1 (fun j hj => hlit.2 j (by omega))
    rw [hout]
    rw [show lw + g = b.length from hlw]

/-! ### Evaluating one decoding step on each emitted token shape -/

/-- Decoding a raw-run control byte `0xe0 + L`. -/
theorem decodeStep_raw (S : List Nat) (L : Nat) (hL : L ≤ 27) (hS0 : getB S 0 = 0xe0 + L)
    (out : List Nat) (p : Nat) :
    decodeStep S 0 (getB S 0) out (some p) =
      (4 * L + 4 + 1, litCopy out (some p) S 1 (4 * L + 4), some (p + (4 * L + 4))) := by
  rw [hS0]
  unfold decodeStep
  rw [if_neg (raw_and128 L (by omega)), if_neg (raw_and64 L (by omega)),
    if_neg (raw_and32 L (by omega))]
  dsimp only
  rw [raw_and31 L (by omega)]
  simp [Nat.mul_comm L 4]

/-- Decoding a 2-byte (short match) control character
`byte0 = hi*32 + m*4 + g`, `byte1 = low 8 bits of the offset`. -/
theorem decodeStep_short (S : List Nat) (hi m g c1 : Nat)
    (hhi : hi ≤ 3) (hm : m ≤ 7) (hg : g ≤ 3) (hc1 : c1 < 256)
    (hS0 : getB S 0 = hi * 32 + m * 4 + g) (hS1 : jsGet S 1 = some c1)
    (out : List Nat) (p : Nat) :
    decodeStep S 0 (getB S 0) out (some p) =
      (g + 2, backCopy (litCopy out (some p) S 2 g) (some (p + g))
        (some (((p + g : Nat) : Int) - ((hi * 256 + c1 + 1 : Nat) : Int))) (m + 3),
        some (p + g + (m + 3))) := by
  have h3 : (hi * 32 + m * 4 + g) &&& 3 = g := by
    rw [short_and3 _ (by omega)]
    omega
  have h1c : ((hi * 32 + m * 4 + g) &&& 0x1c) >>> 2 = m := by
    rw [short_and1c _ (by omega)]
    omega
  have h5 : (hi * 32 + m * 4 + g) >>> 5 = hi := by
    rw [short_shr5 _ (by omega)]
    omega
  rw [hS0]
  unfold decodeStep
  rw [if_pos (short_and128 _ (by omega))]
  dsimp only
  simp only [Nat.zero_add]
  rw [hS1, h3, h1c, h5, shl8_eq]
  simp only [Option.map_some']

/-- Decoding a 3-byte (medium match) control character. -/
theorem decodeStep_med (S : List Nat) (t g e c2 : Nat)
    (ht : t < 64) (hg : g ≤ 3) (he : e < 64) (hc2 : c2 < 256)
    (hS0 : getB S 0 = 0x80 + t) (hS1 : jsGet S 1 = some (g * 64 + e))
    (hS2 : jsGet S 2 = some c2) (out : List Nat) (p : Nat) :
    decodeStep S 0 (getB S 0) out (some p) =
      (g + 3, backCopy (litCopy out (some p) S 3 g) (some (p + g))
        (some (((p + g : Nat) : Int) - ((e * 256 + c2 + 1 : Nat) : Int))) (t + 4),
        some (p + g + (t + 4))) := by
  have hlit : ((g * 64 + e) >>> 6) &&& 3 = g := by
    rw [shr6]
    rw [show (g * 64 + e) / 64 = g from by omega]
    rw [short_and3 g (by omega)]
    omega
  have h63 : (g * 64 + e) &&& 0x3f = e := by
    rw [and_63]
    omega
  rw [hS0]
  unfold decodeStep
  rw [if_neg (med_and128 t ht), if_pos (med_and64 t ht)]
  dsimp only
  simp only [Nat.zero_add]
  rw [hS1, hS2]
  simp only [Option.getD_some]
  rw [hlit, h63, med_and63 t ht]
  simp only [Option.map_some']

/-- Decoding a 4-byte (long match) control character. -/
theorem decodeStep_long (S : List Nat) (d16 l8 g a c2 c3 : Nat)
    (hd16 : d16 ≤ 1) (hl8 : l8 ≤ 3) (hg : g ≤ 3) (ha : a < 256) (hc2 : c2 < 256)
    (hc3 : c3 < 256)
    (hS0 : getB S 0 = 0xc0 + (16 * d16 + 4 * l8 + g))
    (hS1 : jsGet S 1 = some a) (hS2 : jsGet S 2 = some c2) (hS3 : jsGet S 3 = some c3)
    (out : List Nat) (p : Nat) :
    decodeStep S 0 (getB S 0) out (some p) =
      (g + 4, backCopy (litCopy out (some p) S 4 g) (some (p + g))
        (some (((p + g : Nat) : Int) - ((d16 * 65536 + 256 * a + c2 + 1 : Nat) : Int)))
        (l8 * 256 + c3 + 5),
        some (p + g + (l8 * 256 + c3 + 5))) := by
  have ht32 : 16 * d16 + 4 * l8 + g < 32 := by omega
  have h3 : (0xc0 + (16 * d16 + 4 * l8 + g)) &&& 3 = g := by
    rw [long_and3 _ ht32]
    omega
  have hshr : ((0xc0 + (16 * d16 + 4 * l8 + g)) >>> 2) &&& 3 = l8 := by
    rw [long_shr2and3 _ ht32]
    omega
  have h16 : (0xc0 + (16 * d16 + 4 * l8 + g)) &&& 0x10 = 16 * d16 := by
    rw [long_and16 _ ht32]
    congr 1
    omega
  rw [hS0]
  unfold decodeStep
  rw [if_neg (long_and128 _ ht32), if_neg (long_and64 _ ht32), if_pos (long_and32 _ ht32)]
  dsimp only
  simp only [Nat.zero_add]
  rw [hS3]
  dsimp only
  rw [hS1, hS2, h3, hshr, h16, shl12_eq]
  dsimp only
  simp only [Option.map_some']
  rw [show 16 * d16 * 4096 + 256 * a + c2 + 1 = d16 * 65536 + 256 * a + c2 + 1 from by ring]

/-! ### Decoding the encoder's emitted tokens reconstructs the input -/

/-- Decoding one raw-run token of `c` literals taken from `b` at `lw`
extends the reconstructed prefix by `c` and hands over to the rest of the
stream. -/
theorem rawRun_finish (b : List Nat) (hB : Bytes b) (c lw : Nat) (rest out : List Nat)
    (hc4 : c % 4 = 0) (hcge : 4 ≤ c) (hcle : c ≤ 112)
    (hin : lw + c ≤ b.length)
    (hlen : out.length = b.length)
    (hpref : ∀ j, j < lw → getB out j = getB b j) :
    ∃ out2, finishRun ((((0xe0 + (c / 4 - 1)) % 256) :: seg b lw c) ++ rest) out lw =
        finishRun rest out2 (lw + c) ∧
      out2.length = b.length ∧ ∀ j, j < lw + c → getB out2 j = getB b j := by
  have hL : c / 4 - 1 ≤ 27 := by omega
  have hLc : 4 * (c / 4 - 1) + 4 = c := by omega
  have hS0 : getB ((((0xe0 + (c / 4 - 1)) % 256) :: seg b lw c) ++ rest) 0 =
      0xe0 + (c / 4 - 1) := by
    rw [getB_append_lt _ _ 0 (by simp), getB_at0, Nat.mod_eq_of_lt (by omega)]
  have hstep := decodeStep_raw ((((0xe0 + (c / 4 - 1)) % 256) :: seg b lw c) ++ rest)
    (c / 4 - 1) hL hS0 out lw
  rw [hLc] at hstep
  have htok : ((((0xe0 + (c / 4 - 1)) % 256) :: seg b lw c)).length = c + 1 := by
    rw [List.length_cons, seg_length]
  rw [← htok] at hstep
  have hchunk := finishRun_chunk (((0xe0 + (c / 4 - 1)) % 256) :: seg b lw c) rest out
    (litCopy out (some lw) ((((0xe0 + (c / 4 - 1)) % 256) :: seg b lw c) ++ rest) 1 c)
    lw (lw + c) (by simp) (by rw [hS0]; omega) hstep
  have hvals : ∀ k, k < c →
      getB ((((0xe0 + (c / 4 - 1)) % 256) :: seg b lw c) ++ rest) (1 + k) % 256 =
        getB b (lw + k) := by
    intro k hk
    rw [show 1 + k = k + 1 from by omega,
      getB_append_lt _ _ (k+1) (by rw [List.length_cons, seg_length]; omega),
      getB_cons_succ, seg_getB b lw c k hk]
    have := getB_lt_256 b hB (lw + k)
    omega
  have hlit := litCopy_pref b ((((0xe0 + (c / 4 - 1)) % 256) :: seg b lw c) ++ rest) c out
    lw 1 hlen hpref hvals hin
  exact ⟨_, hchunk, hlit.1, hlit.2⟩

/-- Decoding the successive raw-run tokens covering runs `cs` extends the
reconstructed prefix by their total length. -/
theorem renderRuns_finish (b : List Nat) (hB : Bytes b) :
    ∀ cs lw rest out,
      (∀ c ∈ cs, c % 4 = 0 ∧ 4 ≤ c ∧ c ≤ 112) →
      lw + cs.sum ≤ b.length →
      out.length = b.length →
      (∀ j, j < lw → getB out j = getB b j) →
      ∃ out2, finishRun (renderRuns b lw cs ++ rest) out lw =
          finishRun rest out2 (lw + cs.sum) ∧
        out2.length = b.length ∧ ∀ j, j < lw + cs.sum → getB out2 j = getB b j := by
  intro cs
  induction cs with
  | nil =>
    intro lw rest out _ _ hlen hpref
    refine ⟨out, ?_, hlen, fun j hj => hpref j (by simpa using hj)⟩
    simp only [renderRuns, List.nil_append, List.sum_nil, Nat.add_zero]
  | cons c cs ih =>
    intro lw rest out hcs hsum hlen hpref
    obtain ⟨hc4, hcge, hcle⟩ := hcs c (List.mem_cons_self c cs)
    have hsum' : lw + c + cs.sum ≤ b.length := by
      have h := hsum
      rw [List.sum_cons] at h
      omega
    have hsplit : renderRuns b lw (c :: cs) ++ rest =
        (((0xe0 + (c / 4 - 1)) % 256) :: seg b lw c) ++
          (renderRuns b (lw + c) cs ++ rest) := by
      simp only [renderRuns, List.cons_append, List.append_assoc]
    obtain ⟨out1, hfin1, hlen1, hpref1⟩ := rawRun_finish b hB c lw
      (renderRuns b (lw + c) cs ++ rest) out hc4 hcge hcle (by omega) hlen hpref
    obtain ⟨out2, hfin2, hlen2, hpref2⟩ := ih (lw + c) rest out1
      (fun x hx => hcs x (List.mem_cons_of_mem c hx)) hsum' hlen1 hpref1
    refine ⟨out2, ?_, hlen2, ?_⟩
    · rw [hsplit, hfin1, hfin2, List.sum_cons,
        show lw + (c + cs.sum) = lw + c + cs.sum from by omega]
    · intro j hj
      apply hpref2
      rw [List.sum_cons] at hj
      omega

/-- The 2-byte match token in `Nat` normal form. -/
theorem matchTok_eval_short (input : List Nat) (W n bo lw gap : Nat)
    (hn3 : 3 ≤ n) (hn : n ≤ 10) (hbo1 : 1 ≤ bo) (hbo : bo ≤ 1024) (hgap : gap < 4) :
    matchTok input W (n : Int) bo lw gap =
      ((bo - 1) / 256 * 32 + (n - 3) * 4 + gap) ::
        ((bo - 1) % 256) :: seg input lw gap := by
  unfold matchTok
  dsimp only
  rw [if_pos (⟨by omega, hbo⟩ : (n : Int) ≤ 10 ∧ bo ≤ 1024)]
  have hsh : (bo - 1) >>> 8 = (bo - 1) / 256 := by
    rw [Nat.shiftRight_eq_div_pow]
  have hc3 : (n : Int) - 3 = ((n - 3 : Nat) : Int) := by omega
  rw [hsh, hc3]
  have hb1 : ((bo - 1) &&& 0xff) % 256 = (bo - 1) % 256 := by
    rw [and_255]
    omega
  rw [hb1]
  unfold jsByte shlI
  rw [emod_eq_mod, show (2:Int)^5 = 32 from by norm_num,
    show (2:Int)^2 = 4 from by norm_num]
  have hdle : (bo - 1) / 256 ≤ 3 := by omega
  congr 1
  omega

/-- The 3-byte match token in `Nat` normal form. -/
theorem matchTok_eval_med (input : List Nat) (W n bo lw gap : Nat)
    (hn4 : 4 ≤ n) (hn : n ≤ 67) (hbo1 : 1 ≤ bo) (hbo : bo ≤ 16384) (hgap : gap < 4)
    (hnot : ¬ ((n : Int) ≤ 10 ∧ bo ≤ 1024)) :
    matchTok input W (n : Int) bo lw gap =
      (0x80 + (n - 4)) :: (gap * 64 + (bo - 1) / 256) :: ((bo - 1) % 256) ::
        seg input lw gap := by
  unfold matchTok
  dsimp only
  rw [if_neg hnot, if_pos (⟨by omega, hbo⟩ : (n : Int) ≤ 67 ∧ bo ≤ 16384)]
  have hsh : (bo - 1) >>> 8 = (bo - 1) / 256 := by
    rw [Nat.shiftRight_eq_div_pow]
  have hhead : jsByte (0x80 + ((n : Int) - 4)) = 0x80 + (n - 4) := by
    unfold jsByte
    rw [emod_eq_mod]
    omega
  have hb2 : ((bo - 1) &&& 0xff) % 256 = (bo - 1) % 256 := by
    rw [and_255]
    omega
  rw [hsh, hhead, hb2, shl6_eq]
  have hb1 : (gap * 64 + (bo - 1) / 256) % 256 = gap * 64 + (bo - 1) / 256 := by
    have : (bo - 1) / 256 ≤ 63 := by omega
    omega
  rw [hb1]

/-- The 4-byte match token in `Nat` normal form. -/
theorem matchTok_eval_long (input : List Nat) (W n bo lw gap : Nat)
    (hn5 : 5 ≤ n) (hn : n ≤ 1028) (hbo1 : 1 ≤ bo) (hboW : (bo : Int) < (W : Int))
    (hW : W ≤ 131072) (hgap : gap < 4)
    (hnot1 : ¬ ((n : Int) ≤ 10 ∧ bo ≤ 1024)) (hnot2 : ¬ ((n : Int) ≤ 67 ∧ bo ≤ 16384)) :
    matchTok input W (n : Int) bo lw gap =
      (0xc0 + (16 * ((bo - 1) / 65536) + 4 * ((n - 5) / 256) + gap)) ::
        ((bo - 1) / 256 % 256) :: ((bo - 1) % 256) :: ((n - 5) % 256) ::
        seg input lw gap := by
  have hboN : bo < W := by omega
  unfold matchTok
  dsimp only
  rw [if_neg hnot1, if_neg hnot2,
    if_pos (⟨by omega, hboW⟩ : (n : Int) ≤ 1028 ∧ (bo : Int) < (W : Int))]
  have hsh16 : (bo - 1) >>> 16 = (bo - 1) / 65536 := by
    rw [Nat.shiftRight_eq_div_pow]
  have hsh8 : (bo - 1) >>> 8 = (bo - 1) / 256 := by
    rw [Nat.shiftRight_eq_div_pow]
  have hc5 : (n : Int) - 5 = ((n - 5 : Nat) : Int) := by omega
  have hfd : shrI ((n : Int) - 5) 8 = (((n - 5) / 256 : Nat) : Int) := by
    rw [hc5]
    unfold shrI
    rw [show (2:Int)^8 = ((256 : Nat) : Int) from by norm_num, ← Int.ofNat_fdiv]
  have hb3 : jsByte ((n : Int) - 5) = (n - 5) % 256 := by
    unfold jsByte
    rw [emod_eq_mod]
    omega
  have hb2 : ((bo - 1) &&& 0xff) % 256 = (bo - 1) % 256 := by
    rw [and_255]
    omega
  rw [hsh16, hsh8, hfd, hb3, hb2, and_255]
  have hb1 : (bo - 1) / 256 % 256 % 256 = (bo - 1) / 256 % 256 := by omega
  rw [hb1]
  unfold jsByte shlI
  rw [emod_eq_mod, show (2:Int)^4 = 16 from by norm_num,
    show (2:Int)^2 = 4 from by norm_num]
  have hd16 : (bo - 1) / 65536 ≤ 1 := by omega
  have hl8 : (n - 5) / 256 ≤ 3 := by omega
  congr 1
  omega

theorem jsGet_eq (l : List Nat) (j : Nat) (h : j < l.length) :
    jsGet l j = some (getB l j) := get?_eq_getB l j h

/-- The byte-extension loop never shrinks the length accumulator. -/
theorem mlen_ge (input : List Nat) :
    ∀ f incmp inref l, l ≤ mlen input f incmp inref l := by
  intro f
  induction f with
  | zero =>
    intro _ _ l
    simp [mlen]
  | succ f ih =>
    intro incmp inref l
    unfold mlen
    split
    · have := ih (incmp + 1) (inref + 1) (l + 1)
      omega
    · omega

/-- The byte-extension loop caps the match length at 1028. -/
theorem mlen_le1028 (input : List Nat) :
    ∀ f incmp inref l, l ≤ 1028 → mlen input f incmp inref l ≤ 1028 := by
  intro f
  induction f with
  | zero =>
    intro _ _ l h
    simpa [mlen] using h
  | succ f ih =>
    intro incmp inref l h
    unfold mlen
    split
    · rename_i hc
      exact ih (incmp + 1) (inref + 1) (l + 1) (by omega)
    · exact h

/-- Every byte the extension loop counted beyond the initial accumulator
really matches. -/
theorem mlen_match (input : List Nat) :
    ∀ f incmp inref l k, k < mlen input f incmp inref l - l →
      getB input (incmp + k) = getB input (inref + k) := by
  intro f
  induction f with
  | zero =>
    intro incmp inref l k hk
    unfold mlen at hk
    omega
  | succ f ih =>
    intro incmp inref l k hk
    unfold mlen at hk
    split at hk
    · rename_i hc
      rcases k with _ | k
      · simpa using hc.2.2.1
      · have h1 := ih (incmp + 1) (inref + 1) (l + 1) k (by omega)
        have e1 : incmp + 1 + k = incmp + (k + 1) := by omega
        have e2 : inref + 1 + k = inref + (k + 1) := by omega
        rw [e1, e2] at h1
        exact h1
    · omega

/-- The `rev_last` table starts out sound (every entry `-1`). -/
theorem rlInv_init (b : List Nat) : RlInv b (fun _ => -1) 0 :=
  fun _ => Or.inl rfl

/-- The `rev_similar` table starts out sound (every entry `-1`). -/
theorem rsInv_init (b : List Nat) (W : Nat) : RsInv b W (fun _ => -1) 0 :=
  fun _ _ _ _ => Or.inl rfl

/-- The chain head read from `rev_last` is a valid chain value. -/
theorem chainV_head (b : List Nat) (rl : Nat → Int) (inpos : Nat)
    (hrl : RlInv b rl inpos) :
    ChainV b inpos (rl (256 * getB b inpos + getB b (inpos + 1))) := by
  rcases hrl (256 * getB b inpos + getB b (inpos + 1)) with h1 | ⟨p, hp, hplt, hplen, hpidx⟩
  · exact Or.inl h1
  · exact Or.inr ⟨p, hp, hplt, hplen, hpidx⟩

/-- Updating `rev_last` at the current pair keeps it sound one step later. -/
theorem rlInv_step (b : List Nat) (rl : Nat → Int) (inpos : Nat)
    (hin1 : inpos + 1 < b.length) (hrl : RlInv b rl inpos) :
    RlInv b (fun j => if j = 256 * getB b inpos + getB b (inpos + 1) then (inpos : Int)
      else rl j) (inpos + 1) := by
  intro idx
  dsimp only
  by_cases hj : idx = 256 * getB b inpos + getB b (inpos + 1)
  · rw [if_pos hj]
    exact Or.inr ⟨inpos, rfl, by omega, hin1, by rw [hj]; rfl⟩
  · rw [if_neg hj]
    rcases hrl idx with h1 | ⟨p, hp, hplt, hplen, hpidx⟩
    · exact Or.inl h1
    · exact Or.inr ⟨p, hp, by omega, hplen, hpidx⟩

/-- Updating `rev_similar` at the current slot keeps it sound one step
later: within the live window no two distinct positions share a slot. -/
theorem rsInv_step (b : List Nat) (wb : Nat) (rs : Nat → Int) (rl : Nat → Int)
    (inpos : Nat) (hin1 : inpos + 1 < b.length)
    (hrs : RsInv b (2^wb) rs inpos) (hrl : RlInv b rl inpos) :
    RsInv b (2^wb) (fun j => if j = inpos &&& (2^wb - 1)
      then rl (256 * getB b inpos + getB b (inpos + 1)) else rs j) (inpos + 1) := by
  intro p hp hwin hplen
  dsimp only
  have hand : inpos &&& (2^wb - 1) = inpos % 2^wb := Nat.and_pow_two_sub_one_eq_mod inpos wb
  by_cases hpi : p = inpos
  · subst hpi
    rw [if_pos (by rw [hand])]
    rcases chainV_head b rl p hrl with h1 | ⟨q, hq, hqlt, hqlen, hqidx⟩
    · exact Or.inl h1
    · exact Or.inr ⟨q, hq, hqlt, hqlen, hqidx⟩
  · have hlt : p < inpos := by omega
    have hne : p % 2^wb ≠ inpos &&& (2^wb - 1) := by
      rw [hand]
      intro heq
      have hmod : Nat.ModEq (2^wb) p inpos := heq
      have hdvd : 2^wb ∣ inpos - p := (Nat.modEq_iff_dvd' (by omega)).mp hmod
      have hle := Nat.le_of_dvd (by omega) hdvd
      omega
    rw [if_neg hne]
    exact hrs p hlt (by omega) hplen

/-- Soundness of the hash-chain walk: starting from a sound accumulator and
a valid chain value, the reported `(bestlen, bestoffs)` is a sound
accumulator as well. -/
theorem search_sound (b : List Nat) (hB : Bytes b) (wb : Nat) (rs : Nat → Int)
    (inpos : Nat) (hin1 : inpos + 1 < b.length)
    (hrs : RsInv b (2^wb) rs (inpos + 1)) :
    ∀ f offs bl bo,
      ChainV b inpos offs →
      AccOK b (2^wb) inpos bl bo →
      AccOK b (2^wb) inpos (search b (2^wb) rs inpos f offs bl bo).1
        (search b (2^wb) rs inpos f offs bl bo).2 := by
  intro f
  induction f with
  | zero =>
    intro offs bl bo _ hacc
    simpa [search] using hacc
  | succ f ih =>
    intro offs bl bo hchain hacc
    unfold search
    split
    · rename_i hcond
      dsimp only
      rcases hchain with hneg | ⟨q, hq, hqlt, hqlen, hqidx⟩
      · rw [hneg] at hcond
        exact absurd hcond.1 (by norm_num)
      · subst hq
        rw [Int.toNat_ofNat]
        have hqW : inpos - q < 2^wb := by
          have h2 := hcond.2
          omega
        have hand : q &&& (2^wb - 1) = q % 2^wb := Nat.and_pow_two_sub_one_eq_mod q wb
        have hchain' : ChainV b inpos (rs (q &&& (2^wb - 1))) := by
          rw [hand]
          rcases hrs q (by omega) (by omega) hqlen with h1 | ⟨r, hr, hrlt, hrlen, hridx⟩
          · exact Or.inl h1
          · exact Or.inr ⟨r, hr, by omega, hrlen, by rw [hridx, hqidx]⟩
        have hLge : 2 ≤ mlen b (b.length - (inpos + 2)) (inpos + 2) (q + 2) 2 :=
          mlen_ge b _ _ _ _
        have hL1028 : mlen b (b.length - (inpos + 2)) (inpos + 2) (q + 2) 2 ≤ 1028 :=
          mlen_le1028 b _ _ _ _ (by omega)
        have hLle : mlen b (b.length - (inpos + 2)) (inpos + 2) (q + 2) 2 ≤
            b.length - inpos := by
          have := mlen_le b (b.length - (inpos + 2)) (inpos + 2) (q + 2) 2
          omega
        have hq01 : getB b q = getB b inpos ∧ getB b (q + 1) = getB b (inpos + 1) := by
          have h1 := hqidx
          unfold idxAt at h1
          have b1 := getB_lt_256 b hB (q + 1)
          have b2 := getB_lt_256 b hB (inpos + 1)
          constructor <;> omega
        have hmatch : ∀ k, k < mlen b (b.length - (inpos + 2)) (inpos + 2) (q + 2) 2 →
            getB b (q + k) = getB b (inpos + k) := by
          intro k hk
          by_cases hk0 : k = 0
          · subst hk0
            simpa using hq01.1
          · by_cases hk1 : k = 1
            · subst hk1
              exact hq01.2
            · have h1 := mlen_match b (b.length - (inpos + 2)) (inpos + 2) (q + 2) 2
                (k - 2) (by omega)
              rw [show inpos + 2 + (k - 2) = inpos + k from by omega,
                show q + 2 + (k - 2) = q + k from by omega] at h1
              exact h1.symm
        have hcand : MatchOK b (2^wb) inpos
            (mlen b (b.length - (inpos + 2)) (inpos + 2) (q + 2) 2) (inpos - q) := by
          refine ⟨by omega, by omega, hqW, hLge, hL1028, by omega, ?_⟩
          intro k hk
          rw [show inpos - (inpos - q) + k = q + k from by omega]
          exact hmatch k hk
        by_cases hgt : mlen b (b.length - (inpos + 2)) (inpos + 2) (q + 2) 2 > bl
        · rw [if_pos hgt, if_pos hgt]
          exact ih _ _ _ hchain' (Or.inr hcand)
        · rw [if_neg hgt, if_neg hgt]
          exact ih _ _ _ hchain' hacc
    · exact hacc

/-- Common postlude for the three match-token shapes: once the decoding step
on the token is known to perform the gap literal copy followed by the
back-copy of `n` bytes at distance `bo`, the reconstructed prefix extends to
`lw + gap + n`. -/
theorem backref_finish (b : List Nat) (hB : Bytes b) (n bo lw gap s : Nat)
    (T rest out : List Nat)
    (hbo1 : 1 ≤ bo) (hbole : bo ≤ lw + gap)
    (hmatch : ∀ k, k < n → getB b (lw + gap - bo + k) = getB b (lw + gap + k))
    (hin : lw + gap + n ≤ b.length)
    (hlen : out.length = b.length)
    (hpref : ∀ j, j < lw → getB out j = getB b j)
    (htok : T ≠ [])
    (hcode : getB (T ++ rest) 0 < 0xfc)
    (hlits : ∀ k, k < gap → getB (T ++ rest) (s + k) % 256 = getB b (lw + k))
    (hstep : decodeStep (T ++ rest) 0 (getB (T ++ rest) 0) out (some lw) =
      (T.length,
        backCopy (litCopy out (some lw) (T ++ rest) s gap) (some (lw + gap))
          (some (((lw + gap : Nat) : Int) - (bo : Int))) n,
        some (lw + gap + n))) :
    ∃ out2, finishRun (T ++ rest) out lw = finishRun rest out2 (lw + gap + n) ∧
      out2.length = b.length ∧ ∀ j, j < lw + gap + n → getB out2 j = getB b j := by
  have hlit := litCopy_pref b (T ++ rest) gap out lw s hlen hpref hlits (by omega)
  have hback := backCopy_pref b hB bo hbo1 n (litCopy out (some lw) (T ++ rest) s gap)
    (lw + gap) hlit.1 hlit.2 hbole hmatch hin
  have hchunk := finishRun_chunk T rest out _ lw (lw + gap + n) htok hcode hstep
  exact ⟨_, hchunk, hback.1, hback.2⟩

/-- Decoding the match token emitted for a sound accepted match `(n, bo)` at
position `lw + gap` (the shapes rejected by the encoder's `continue`
condition excluded) extends the reconstructed prefix to `lw + gap + n`. -/
theorem matchTok_finish (b : List Nat) (hB : Bytes b) (W n bo lw gap : Nat)
    (rest out : List Nat)
    (hW : W ≤ 131072)
    (hbo1 : 1 ≤ bo) (hboW : bo < W) (hbole : bo ≤ lw + gap)
    (hn3 : 3 ≤ n) (hnle : n ≤ 1028)
    (hsh3 : n = 3 → bo ≤ 1024) (hsh4 : n = 4 → bo ≤ 16384)
    (hgap : gap < 4)
    (hmatch : ∀ k, k < n → getB b (lw + gap - bo + k) = getB b (lw + gap + k))
    (hin : lw + gap + n ≤ b.length)
    (hlen : out.length = b.length)
    (hpref : ∀ j, j < lw → getB out j = getB b j) :
    ∃ out2, finishRun (matchTok b W (n : Int) bo lw gap ++ rest) out lw =
        finishRun rest out2 (lw + gap + n) ∧
      out2.length = b.length ∧ ∀ j, j < lw + gap + n → getB out2 j = getB b j := by
  by_cases h1 : n ≤ 10 ∧ bo ≤ 1024
  · -- 2-byte shape
    rw [matchTok_eval_short b W n bo lw gap hn3 h1.1 hbo1 h1.2 hgap]
    have hS0 : getB ((((bo - 1) / 256 * 32 + (n - 3) * 4 + gap) ::
        ((bo - 1) % 256) :: seg b lw gap) ++ rest) 0 =
        (bo - 1) / 256 * 32 + (n - 3) * 4 + gap := by
      rw [getB_append_lt _ _ 0 (by simp), getB_at0]
    have hS1 : jsGet ((((bo - 1) / 256 * 32 + (n - 3) * 4 + gap) ::
        ((bo - 1) % 256) :: seg b lw gap) ++ rest) 1 = some ((bo - 1) % 256) := by
      rw [jsGet_eq _ 1 (by simp only [List.length_append, List.length_cons, seg_length]; omega),
        getB_append_lt _ _ 1 (by simp only [List.length_cons, seg_length]; omega), getB_at1]
    have hstep := decodeStep_short ((((bo - 1) / 256 * 32 + (n - 3) * 4 + gap) ::
        ((bo - 1) % 256) :: seg b lw gap) ++ rest) ((bo - 1) / 256) (n - 3) gap
      ((bo - 1) % 256) (by omega) (by omega) (by omega) (by omega) hS0 hS1 out lw
    rw [show (bo - 1) / 256 * 256 + (bo - 1) % 256 + 1 = bo from by omega,
      show n - 3 + 3 = n from by omega] at hstep
    have htokl : ((((bo - 1) / 256 * 32 + (n - 3) * 4 + gap) ::
        ((bo - 1) % 256) :: seg b lw gap)).length = gap + 2 := by
      simp only [List.length_cons, seg_length]
    rw [← htokl] at hstep
    have hlits : ∀ k, k < gap →
        getB ((((bo - 1) / 256 * 32 + (n - 3) * 4 + gap) ::
          ((bo - 1) % 256) :: seg b lw gap) ++ rest) (2 + k) % 256 = getB b (lw + k) := by
      intro k hk
      rw [show 2 + k = k + 1 + 1 from by omega,
        getB_append_lt _ _ (k + 1 + 1) (by simp only [List.length_cons, seg_length]; omega),
        getB_cons_succ, getB_cons_succ, seg_getB b lw gap k hk]
      have := getB_lt_256 b hB (lw + k)
      omega
    exact backref_finish b hB n bo lw gap 2
      (((bo - 1) / 256 * 32 + (n - 3) * 4 + gap) :: ((bo - 1) % 256) :: seg b lw gap)
      rest out hbo1 hbole hmatch hin hlen hpref (by simp) (by rw [hS0]; omega) hlits hstep
  · by_cases h2 : n ≤ 67 ∧ bo ≤ 16384
    · -- 3-byte shape
      have hn4 : 4 ≤ n := by
        by_cases h3 : n = 3
        · exact absurd ⟨by omega, hsh3 h3⟩ h1
        · omega
      have hnot1 : ¬ ((n : Int) ≤ 10 ∧ bo ≤ 1024) := by
        intro hc
        exact h1 ⟨by omega, hc.2⟩
      rw [matchTok_eval_med b W n bo lw gap hn4 h2.1 hbo1 h2.2 hgap hnot1]
      have hS0 : getB (((0x80 + (n - 4)) :: (gap * 64 + (bo - 1) / 256) ::
          ((bo - 1) % 256) :: seg b lw gap) ++ rest) 0 = 0x80 + (n - 4) := by
        rw [getB_append_lt _ _ 0 (by simp), getB_at0]
      have hS1 : jsGet (((0x80 + (n - 4)) :: (gap * 64 + (bo - 1) / 256) ::
          ((bo - 1) % 256) :: seg b lw gap) ++ rest) 1 =
          some (gap * 64 + (bo - 1) / 256) := by
        rw [jsGet_eq _ 1
            (by simp only [List.length_append, List.length_cons, seg_length]; omega),
          getB_append_lt _ _ 1 (by simp only [List.length_cons, seg_length]; omega), getB_at1]
      have hS2 : jsGet (((0x80 + (n - 4)) :: (gap * 64 + (bo - 1) / 256) ::
          ((bo - 1) % 256) :: seg b lw gap) ++ rest) 2 = some ((bo - 1) % 256) := by
        rw [jsGet_eq _ 2
            (by simp only [List.length_append, List.length_cons, seg_length]; omega),
          getB_append_lt _ _ 2 (by simp only [List.length_cons, seg_length]; omega), getB_at2]
      have hstep := decodeStep_med (((0x80 + (n - 4)) :: (gap * 64 + (bo - 1) / 256) ::
          ((bo - 1) % 256) :: seg b lw gap) ++ rest) (n - 4) gap ((bo - 1) / 256)
        ((bo - 1) % 256) (by omega) (by omega) (by omega) (by omega) hS0 hS1 hS2 out lw
      rw [show (bo - 1) / 256 * 256 + (bo - 1) % 256 + 1 = bo from by omega,
        show n - 4 + 4 = n from by omega] at hstep
      have htokl : (((0x80 + (n - 4)) :: (gap * 64 + (bo - 1) / 256) ::
          ((bo - 1) % 256) :: seg b lw gap)).length = gap + 3 := by
        simp only [List.length_cons, seg_length]
      rw [← htokl] at hstep
      have hlits : ∀ k, k < gap →
          getB (((0x80 + (n - 4)) :: (gap * 64 + (bo - 1) / 256) ::
            ((bo - 1) % 256) :: seg b lw gap) ++ rest) (3 + k) % 256 = getB b (lw + k) := by
        intro k hk
        rw [show 3 + k = k + 1 + 1 + 1 from by omega,
          getB_append_lt _ _ (k + 1 + 1 + 1)
            (by simp only [List.length_cons, seg_length]; omega),
          getB_cons_succ, getB_cons_succ, getB_cons_succ, seg_getB b lw gap k hk]
        have := getB_lt_256 b hB (lw + k)
        omega
      exact backref_finish b hB n bo lw gap 3
        ((0x80 + (n - 4)) :: (gap * 64 + (bo - 1) / 256) ::
          ((bo - 1) % 256) :: seg b lw gap)
        rest out hbo1 hbole hmatch hin hlen hpref (by simp) (by rw [hS0]; omega) hlits hstep
    · -- 4-byte shape
      have hn5 : 5 ≤ n := by
        by_cases h3 : n = 3
        · exact absurd ⟨by omega, hsh3 h3⟩ h1
        · by_cases h4 : n = 4
          · exact absurd ⟨by omega, hsh4 h4⟩ h2
          · omega
      have hnot1 : ¬ ((n : Int) ≤ 10 ∧ bo ≤ 1024) := by
        intro hc
        exact h1 ⟨by omega, hc.2⟩
      have hnot2 : ¬ ((n : Int) ≤ 67 ∧ bo ≤ 16384) := by
        intro hc
        exact h2 ⟨by omega, hc.2⟩
      rw [matchTok_eval_long b W n bo lw gap hn5 hnle hbo1 (by omega) hW hgap hnot1 hnot2]
      have hS0 : getB (((0xc0 + (16 * ((bo - 1) / 65536) + 4 * ((n - 5) / 256) + gap)) ::
          ((bo - 1) / 256 % 256) :: ((bo - 1) % 256) :: ((n - 5) % 256) ::
          seg b lw gap) ++ rest) 0 =
          0xc0 + (16 * ((bo - 1) / 65536) + 4 * ((n - 5) / 256) + gap) := by
        rw [getB_append_lt _ _ 0 (by simp), getB_at0]
      have hS1 : jsGet (((0xc0 + (16 * ((bo - 1) / 65536) + 4 * ((n - 5) / 256) + gap)) ::
          ((bo - 1) / 256 % 256) :: ((bo - 1) % 256) :: ((n - 5) % 256) ::
          seg b lw gap) ++ rest) 1 = some ((bo - 1) / 256 % 256) := by
        rw [jsGet_eq _ 1
            (by simp only [List.length_append, List.length_cons, seg_length]; omega),
          getB_append_lt _ _ 1 (by simp only [List.length_cons, seg_length]; omega), getB_at1]
      have hS2 : jsGet (((0xc0 + (16 * ((bo - 1) / 65536) + 4 * ((n - 5) / 256) + gap)) ::
          ((bo - 1) / 256 % 256) :: ((bo - 1) % 256) :: ((n - 5) % 256) ::
          seg b lw gap) ++ rest) 2 = some ((bo - 1) % 256) := by
        rw [jsGet_eq _ 2
            (by simp only [List.length_append, List.length_cons, seg_length]; omega),
          getB_append_lt _ _ 2 (by simp only [List.length_cons, seg_length]; omega), getB_at2]
      have hS3 : jsGet (((0xc0 + (16 * ((bo - 1) / 65536) + 4 * ((n - 5) / 256) + gap)) ::
          ((bo - 1) / 256 % 256) :: ((bo - 1) % 256) :: ((n - 5) % 256) ::
          seg b lw gap) ++ rest) 3 = some ((n - 5) % 256) := by
        rw [jsGet_eq _ 3
            (by simp only [List.length_append, List.length_cons, seg_length]; omega),
          getB_append_lt _ _ 3 (by simp only [List.length_cons, seg_length]; omega), getB_at3]
      have hstep := decodeStep_long
        (((0xc0 + (16 * ((bo - 1) / 65536) + 4 * ((n - 5) / 256) + gap)) ::
          ((bo - 1) / 256 % 256) :: ((bo - 1) % 256) :: ((n - 5) % 256) ::
          seg b lw gap) ++ rest) ((bo - 1) / 65536) ((n - 5) / 256) gap
        ((bo - 1) / 256 % 256) ((bo - 1) % 256) ((n - 5) % 256)
        (by omega) (by omega) (by omega) (by omega) (by omega) (by omega)
        hS0 hS1 hS2 hS3 out lw
      rw [show (bo - 1) / 65536 * 65536 + 256 * ((bo - 1) / 256 % 256) +
            (bo - 1) % 256 + 1 = bo from by omega,
        show (n - 5) / 256 * 256 + (n - 5) % 256 + 5 = n from by omega] at hstep
      have htokl : (((0xc0 + (16 * ((bo - 1) / 65536) + 4 * ((n - 5) / 256) + gap)) ::
          ((bo - 1) / 256 % 256) :: ((bo - 1) % 256) :: ((n - 5) % 256) ::
          seg b lw gap)).length = gap + 4 := by
        simp only [List.length_cons, seg_length]
      rw [← htokl] at hstep
      have hlits : ∀ k, k < gap →
          getB (((0xc0 + (16 * ((bo - 1) / 65536) + 4 * ((n - 5) / 256) + gap)) ::
            ((bo - 1) / 256 % 256) :: ((bo - 1) % 256) :: ((n - 5) % 256) ::
            seg b lw gap) ++ rest) (4 + k) % 256 = getB b (lw + k) := by
        intro k hk
        rw [show 4 + k = k + 1 + 1 + 1 + 1 from by omega,
          getB_append_lt _ _ (k + 1 + 1 + 1 + 1)
            (by simp only [List.length_cons, seg_length]; omega),
          getB_cons_succ, getB_cons_succ, getB_cons_succ, getB_cons_succ,
          seg_getB b lw gap k hk]
        have := getB_lt_256 b hB (lw + k)
        omega
      exact backref_finish b hB n bo lw gap 4
        ((0xc0 + (16 * ((bo - 1) / 65536) + 4 * ((n - 5) / 256) + gap)) ::
          ((bo - 1) / 256 % 256) :: ((bo - 1) % 256) :: ((n - 5) % 256) :: seg b lw gap)
        rest out hbo1 hbole hmatch hin hlen hpref (by simp)
        (by rw [hS0]; omega) hlits hstep

/-- `matchAdv` in `Nat` normal form whenever one of the shapes applied. -/
theorem matchAdv_eval (W : Nat) (n bo lw gap : Nat)
    (h : ((n : Int) ≤ 10 ∧ bo ≤ 1024) ∨ ((n : Int) ≤ 67 ∧ bo ≤ 16384) ∨
      ((n : Int) ≤ 1028 ∧ (bo : Int) < (W : Int))) :
    matchAdv W (n : Int) bo lw gap = lw + gap + n := by
  unfold matchAdv
  rw [if_pos h]
  omega

/-- Decoding the bytes pushed after the encoder's main loop (the final
`fill` plus the terminal token) completes the reconstruction of `b`. -/
theorem tail_finish (b : List Nat) (hB : Bytes b) (lw : Nat) (out : List Nat)
    (hlw : lw ≤ b.length) (hlen : out.length = b.length)
    (hpref : ∀ j, j < lw → getB out j = getB b j) :
    finishRun (tailBytes b lw) out lw = (b, some b.length) := by
  obtain ⟨h1, h2, h3, h4, h5⟩ := fillBytes_spec b (b.length - lw) lw b.length hlw (le_refl _)
  unfold tailBytes
  dsimp only
  rw [h1]
  obtain ⟨out2, hfin, hlen2, hpref2⟩ := renderRuns_finish b hB
    (fillLens (b.length - lw) (b.length - lw)) lw
    (((0xfc + (b.length - (fillBytes b (b.length - lw) lw b.length).2)) % 256) ::
      seg b (fillBytes b (b.length - lw) lw b.length).2
        (b.length - (fillBytes b (b.length - lw) lw b.length).2))
    out h4 (by omega) hlen hpref
  rw [hfin, ← h2]
  exact finishRun_terminal b hB _ _ out2 h3 (by omega) hlen2 (fun j hj => hpref2 j (by omega))

/-- Decoding everything the encoding loop pushes, from a state whose tables
are sound and whose output prefix is already reconstructed, completes the
reconstruction of `b`.  No hypothesis on the fuel is needed: running out of
fuel emits the same final `fill` and terminal token as loop exit does. -/
theorem cLoop_finish (b : List Nat) (hB : Bytes b) (wb : Nat) (hwb : wb ≤ 17) :
    ∀ f inpos lastwrot rl rs out,
      lastwrot ≤ b.length →
      RlInv b rl inpos →
      RsInv b (2^wb) rs inpos →
      out.length = b.length →
      (∀ j, j < lastwrot → getB out j = getB b j) →
      finishRun (cLoop b (2^wb) f inpos lastwrot rl rs) out lastwrot =
        (b, some b.length) := by
  have hWle : (2:Nat)^wb ≤ 131072 := by
    have h1 : (2:Nat)^wb ≤ 2^17 := Nat.pow_le_pow_right (by norm_num) hwb
    have h2 : (2:Nat)^17 = 131072 := by norm_num
    omega
  intro f
  induction f with
  | zero =>
    intro inpos lastwrot rl rs out hlw _ _ hlen hpref
    exact tail_finish b hB lastwrot out hlw hlen hpref
  | succ f ih =>
    intro inpos lastwrot rl rs out hlw hrl hrs hlen hpref
    conv_lhs => rw [cLoop]
    by_cases hin : inpos + 1 < b.length
    · rw [if_pos hin]
      dsimp only
      set rs1 : Nat → Int := fun j => if j = inpos &&& (2^wb - 1)
        then rl (256 * getB b inpos + getB b (inpos + 1)) else rs j with hrs1
      set rl1 : Nat → Int := fun j => if j = 256 * getB b inpos + getB b (inpos + 1)
        then (inpos : Int) else rl j with hrl1
      have hrsInv1 : RsInv b (2^wb) rs1 (inpos + 1) := by
        rw [hrs1]
        exact rsInv_step b wb rs rl inpos hin hrs hrl
      have hrlInv1 : RlInv b rl1 (inpos + 1) := by
        rw [hrl1]
        exact rlInv_step b rl inpos hin hrl
      by_cases hskip : inpos < lastwrot
      · rw [if_pos hskip]
        exact ih (inpos + 1) lastwrot rl1 rs1 out hlw hrlInv1 hrsInv1 hlen hpref
      · rw [if_neg hskip]
        set sr := search b (2^wb) rs1 inpos QFS_MAXITER
          (rl (256 * getB b inpos + getB b (inpos + 1))) 0 0 with hsr
        have hacc : AccOK b (2^wb) inpos sr.1 sr.2 := by
          rw [hsr]
          exact search_sound b hB wb rs1 inpos hin hrsInv1 QFS_MAXITER _ 0 0
            (chainV_head b rl inpos hrl) (Or.inl ⟨rfl, rfl⟩)
        have hsle : sr.1 ≤ b.length - inpos := by
          rw [hsr]
          exact search_le b (2^wb) rs1 inpos QFS_MAXITER _ 0 0 (by omega) (by omega)
        have hclamp : ¬ ((sr.1 : Int) > (b.length : Int) - (inpos : Int)) := by
          omega
        by_cases hrej : sr.1 ≤ 2 ∨ (sr.1 = 3 ∧ sr.2 > 1024) ∨ (sr.1 = 4 ∧ sr.2 > 16384)
        · rw [if_pos ⟨hclamp, hrej⟩]
          exact ih (inpos + 1) lastwrot rl1 rs1 out hlw hrlInv1 hrsInv1 hlen hpref
        · rw [if_neg (fun hc => hrej hc.2)]
          have hbl3 : 3 ≤ sr.1 := by omega
          rw [if_neg hclamp, if_neg (show ¬ ((sr.1 : Int) = 0) from by omega)]
          rcases hacc with ⟨h0, _⟩ | hM
          · exact absurd h0 (by omega)
          obtain ⟨hbo1, hboin, hboW, hn2, hn1028, hnin, hmat⟩ := hM
          have hlww : lastwrot ≤ inpos := by omega
          obtain ⟨hf1, hf2, hf3, hf4, hf5⟩ :=
            fillBytes_spec b (inpos - lastwrot) lastwrot inpos hlww (le_refl _)
          rw [hf1, List.append_assoc]
          obtain ⟨out2, hfin2, hlen2, hpref2⟩ := renderRuns_finish b hB
            (fillLens (inpos - lastwrot) (inpos - lastwrot)) lastwrot
            (matchTok b (2^wb) (sr.1 : Int) sr.2
                (fillBytes b (inpos - lastwrot) lastwrot inpos).2
                (inpos - (fillBytes b (inpos - lastwrot) lastwrot inpos).2) ++
              cLoop b (2^wb) f (inpos + 1)
                (matchAdv (2^wb) (sr.1 : Int) sr.2
                  (fillBytes b (inpos - lastwrot) lastwrot inpos).2
                  (inpos - (fillBytes b (inpos - lastwrot) lastwrot inpos).2)) rl1 rs1)
            out hf4 (by omega) hlen hpref
          rw [hfin2, ← hf2]
          have hlwgap : (fillBytes b (inpos - lastwrot) lastwrot inpos).2 +
              (inpos - (fillBytes b (inpos - lastwrot) lastwrot inpos).2) = inpos := by
            omega
          obtain ⟨out3, hfin3, hlen3, hpref3⟩ := matchTok_finish b hB (2^wb) sr.1 sr.2
            (fillBytes b (inpos - lastwrot) lastwrot inpos).2
            (inpos - (fillBytes b (inpos - lastwrot) lastwrot inpos).2)
            (cLoop b (2^wb) f (inpos + 1)
              (matchAdv (2^wb) (sr.1 : Int) sr.2
                (fillBytes b (inpos - lastwrot) lastwrot inpos).2
                (inpos - (fillBytes b (inpos - lastwrot) lastwrot inpos).2)) rl1 rs1)
            out2 hWle hbo1 hboW (by omega) hbl3 hn1028 (by omega) (by omega) (by omega)
            (by
              intro k hk
              rw [hlwgap]
              exact hmat k hk)
            (by rw [hlwgap]; omega) hlen2 (fun j hj => hpref2 j (by omega))
          rw [hfin3, matchAdv_eval (2^wb) sr.1 sr.2
            (fillBytes b (inpos - lastwrot) lastwrot inpos).2
            (inpos - (fillBytes b (inpos - lastwrot) lastwrot inpos).2)
            (Or.inr (Or.inr ⟨by omega, by omega⟩))]
          exact ih (inpos + 1) _ rl1 rs1 out3 (by omega) hrlInv1 hrsInv1 hlen3 hpref3
    · rw [if_neg hin]
      exact tail_finish b hB lastwrot out hlw hlen hpref

/-- The three-byte big-endian size field written by `compress` decodes to
the original length whenever it fits in 24 bits. -/
theorem size_field_eq (L : Nat) (hL : L ≤ 0xffffff) :
    0x10000 * ((L >>> 16) % 256) + 0x100 * (((L >>> 8) &&& 0xff) % 256) +
      (L &&& 0xff) % 256 = L := by
  rw [and_255, and_255, Nat.shiftRight_eq_div_pow, Nat.shiftRight_eq_div_pow,
    show (2:Nat)^16 = 65536 from by norm_num, show (2:Nat)^8 = 256 from by norm_num]
  omega

/-- Decoding a stream with a plain 5-byte header whose declared size is
`b.length` and whose token part decodes to `b` yields `b`. -/
theorem decompress_header5 (b T : List Nat) (s2 s3 s4 : Nat)
    (hsz : 0x10000 * s2 + 0x100 * s3 + s4 = b.length)
    (hrt : runTokens T b.length = (b, some b.length)) :
    decompress (0x10 :: 0xfb :: s2 :: s3 :: s4 :: T) = .ok b := by
  unfold decompress
  dsimp only
  have hmagic : (jsGet (0x10 :: 0xfb :: s2 :: s3 :: s4 :: T) 0 = some 0x10 ∨
      jsGet (0x10 :: 0xfb :: s2 :: s3 :: s4 :: T) 0 = some 0x11) ∧
      jsGet (0x10 :: 0xfb :: s2 :: s3 :: s4 :: T) 1 = some 0xfb := ⟨Or.inl rfl, rfl⟩
  rw [if_pos hmagic, if_neg (show ¬ ((0x10 :: 0xfb :: s2 :: s3 :: s4 :: T).length < 5) from
    by simp only [List.length_cons]; omega)]
  have hhl : headerLen (0x10 :: 0xfb :: s2 :: s3 :: s4 :: T) = 5 := by
    unfold headerLen
    rw [getB_at0]
    rw [if_neg (by decide)]
  have hds : declaredSize (0x10 :: 0xfb :: s2 :: s3 :: s4 :: T) = b.length := by
    unfold declaredSize
    rw [getB_at2, getB_at3, getB_at4]
    exact hsz
  have hrun := decodeRun_append [0x10, 0xfb, s2, s3, s4] T b.length
  rw [show ([0x10, 0xfb, s2, s3, s4] : List Nat).length = 5 from rfl] at hrun
  have hsplit : ([0x10, 0xfb, s2, s3, s4] : List Nat) ++ T =
      0x10 :: 0xfb :: s2 :: s3 :: s4 :: T := rfl
  rw [hsplit] at hrun
  rw [hhl, hds, hrun, hrt]
  dsimp only
  rw [if_pos rfl]

/-- C1: `compress` with the default options followed by `decompress` is the
identity on byte sequences of length at most `0xffffff`: compression
succeeds and decompressing its output returns exactly the original input. -/
theorem roundtrip (b : List Nat) (hB : Bytes b) (hsz : b.length ≤ 0xffffff) :
    ∃ c, compressD b = .ok c ∧ decompress c = .ok b := by
  refine ⟨0x10 :: 0xfb :: ((b.length >>> 16) % 256) ::
      (((b.length >>> 8) &&& 0xff) % 256) :: ((b.length &&& 0xff) % 256) ::
      cLoop b (2^17) b.length 0 0 (fun _ => -1) (fun _ => -1), ?_, ?_⟩
  · unfold compressD compress
    rw [if_neg (by omega)]
  · apply decompress_header5
    · exact size_field_eq b.length hsz
    · unfold runTokens
      exact cLoop_finish b hB 17 (le_refl 17) b.length 0 0 (fun _ => -1) (fun _ => -1)
        (List.replicate b.length 0) (by omega) (rlInv_init b) (rsInv_init b (2^17))
        (by rw [List.length_replicate]) (fun j hj => absurd hj (by omega))

/-- Witness for the round-trip theorem at a concrete input. -/
theorem roundtrip_witness :
    ∃ c, compressD [97, 98, 99] = .ok c ∧ decompress c = .ok [97, 98, 99] :=
  roundtrip [97, 98, 99] (by unfold Bytes; decide) (by decide)

end Qfs
